import Mathlib

/-!
Shallow embedding of `src/transformers/models/h3/convert_h3_original_to_pytorch.py`.

Strings are modelled as `List Char` (via `String.data`), Python dicts as
association lists `List (Key × α)` with Python's ordered-dict semantics
(update-in-place keeps the position, fresh keys append at the end, `pop`
removes the entry), and fallible Python code (KeyError and the like) returns
`Option`.  All recursive functions use explicit fuel so every definition
reduces in the kernel.
-/

namespace H3

abbrev Key := List Char

/-- Boolean list-prefix test (Python `str.startswith` on `List Char`). -/
def isPre (p s : List Char) : Bool :=
  match p with
  | [] => true
  | pc :: pt =>
    match s with
    | [] => false
    | sc :: st => pc = sc && isPre pt st

/-- Python's substring test `p in s`. -/
def containsSub (p : List Char) : List Char → Bool
  | [] => isPre p []
  | c :: t => isPre p (c :: t) || containsSub p t

/-- Fuel-driven core of Python's `str.replace`: replaces every
non-overlapping occurrence of `p` left to right by `r`. -/
def replaceAllF (p r : List Char) : Nat → List Char → List Char
  | _, [] => []
  | 0, s => s
  | fuel + 1, c :: t =>
    if p ≠ [] ∧ isPre p (c :: t) = true then
      r ++ replaceAllF p r fuel ((c :: t).drop p.length)
    else
      c :: replaceAllF p r fuel t

/-- Python `s.replace(p, r)` (for the nonempty patterns used by the source). -/
def replaceAll (p r s : List Char) : List Char := replaceAllF p r s.length s

/- The string constants of the conversion script. -/

def pBackbone : Key := "backbone".data
def pEmb : Key := "backbone.embeddings".data
def pLayers : Key := "backbone.layers".data
def pLnf : Key := "backbone.ln_f".data
def rH3 : Key := "h3".data
def rBlocks : Key := "h3.blocks".data
def rFinal : Key := "h3.final_layernorm".data

/-- `rename_key` from the source: three sequential substring-triggered
rewrites. -/
def rename_key (name : Key) : Key :=
  let n1 := if containsSub pEmb name then replaceAll pBackbone rH3 name else name
  let n2 := if containsSub pLayers n1 then replaceAll pLayers rBlocks n1 else n1
  let n3 := if containsSub pLnf n2 then replaceAll pLnf rFinal n2 else n2
  n3

end H3

namespace H3

/- Python dict model: ordered association list. -/

abbrev Dict (α : Type) := List (Key × α)

/-- Keys of a dict, in order. -/
def dkeys {α : Type} (d : Dict α) : List Key := d.map Prod.fst

/-- First-match lookup, `d[k]` / `d.get(k)`. -/
def dlookup {α : Type} (k : Key) : Dict α → Option α
  | [] => none
  | (k2, v) :: d => if k = k2 then some v else dlookup k d

/-- `d[k] = v`: overwrite in place if the key exists, else append. -/
def dinsert {α : Type} (k : Key) (v : α) : Dict α → Dict α
  | [] => [(k, v)]
  | (k2, v2) :: d => if k = k2 then (k, v) :: d else (k2, v2) :: dinsert k v d

/-- `d.pop(k)`: value plus the dict without that entry; `none` models
`KeyError`. -/
def dpop {α : Type} (k : Key) : Dict α → Option (α × Dict α)
  | [] => none
  | (k2, v2) :: d =>
    if k = k2 then some (v2, d)
    else (dpop k d).map (fun p => (p.1, (k2, v2) :: p.2))

/-- Python `k in d`. -/
def hasKey {α : Type} (k : Key) (d : Dict α) : Bool := (dlookup k d).isSome

/-- One step of the `convert_state_dict` loop body:
`val = d.pop(key); d[rename_key(key)] = val`. -/
def csdStep {α : Type} (k : Key) (d : Dict α) : Dict α :=
  match dpop k d with
  | some (v, d2) => dinsert (rename_key k) v d2
  | none => d

/-- The `convert_state_dict` loop over a snapshot of the keys. -/
def csdGo {α : Type} : List Key → Dict α → Dict α
  | [], d => d
  | k :: ks, d => csdGo ks (csdStep k d)

/-- `convert_state_dict`: iterate over `orig_state_dict.copy().keys()`,
popping each key and re-inserting under its renamed key. -/
def convert_state_dict {α : Type} (d : Dict α) : Dict α := csdGo (dkeys d) d

end H3

namespace H3

/- Decimal rendering of layer indices (Python f-string `{l}` on a
non-negative int). -/

/-- The decimal digit characters. -/
def digitChar (d : Nat) : Char :=
  if d = 0 then '0' else if d = 1 then '1' else if d = 2 then '2'
  else if d = 3 then '3' else if d = 4 then '4' else if d = 5 then '5'
  else if d = 6 then '6' else if d = 7 then '7' else if d = 8 then '8'
  else '9'

/-- Fuel-driven decimal rendering. -/
def toDecF : Nat → Nat → List Char
  | 0, _ => []
  | fuel + 1, n =>
    if n < 10 then [digitChar n]
    else toDecF fuel (n / 10) ++ [digitChar (n % 10)]

/-- Decimal rendering of a natural number, as Python's `str` / f-string. -/
def toDec (n : Nat) : List Char := toDecF (n + 1) n

/- The reindexing stage (lines 104-123 of the source). -/

def sufN1w : Key := ".norm1.weight".data
def sufN1b : Key := ".norm1.bias".data
def sufN2w : Key := ".norm2.weight".data
def sufN2b : Key := ".norm2.bias".data
def layersPre : Key := "backbone.layers.".data

/-- `f"backbone.layers.{l}" + suf`. -/
def layerKey (l : Nat) (suf : Key) : Key := layersPre ++ toDec l ++ suf

def ln0w : Key := "backbone.ln_0.weight".data
def ln0b : Key := "backbone.ln_0.bias".data
def lnfw : Key := "backbone.ln_f.weight".data
def lnfb : Key := "backbone.ln_f.bias".data
def blk0w : Key := "h3.blocks.0.norm1.weight".data
def blk0b : Key := "h3.blocks.0.norm1.bias".data

/-- Body of `for l in reversed(range(n_layers))` at index `l`. -/
def reindexBody {α : Type} (l : Nat) (d : Dict α) : Option (Dict α) := do
  let p1 ← dpop (layerKey l sufN1w) d
  let p2 ← dpop (layerKey l sufN1b) p1.2
  let d2 := dinsert (layerKey l sufN2b) p2.1 (dinsert (layerKey l sufN2w) p1.1 p2.2)
  if 0 < l then
    let p3 ← dpop (layerKey (l - 1) sufN2w) d2
    let p4 ← dpop (layerKey (l - 1) sufN2b) p3.2
    some (dinsert (layerKey l sufN1b) p4.1 (dinsert (layerKey l sufN1w) p3.1 p4.2))
  else
    some d2

/-- The reversed loop: `reindexLoop d m` runs the body at indices
`m-1, m-2, ..., 0`, exactly `reversed(range(m))`. -/
def reindexLoop {α : Type} : Dict α → Nat → Option (Dict α)
  | d, 0 => some d
  | d, m + 1 => do
    let d2 ← reindexBody m d
    reindexLoop d2 m

/-- The full normalization-reindexing stage: guarded by the sentinel key,
promote the last layer's `norm2` to `ln_f`, rotate every `norm1`/`norm2`
one step, and seed layer 0's `norm1` (under its destination-style name)
with the sentinel tensors. -/
def reindex {α : Type} (L : Nat) (sd : Dict α) : Option (Dict α) :=
  if hasKey ln0w sd then do
    let pw ← dpop (layerKey (L - 1) sufN2w) sd
    let pb ← dpop (layerKey (L - 1) sufN2b) pw.2
    let d1 := dinsert lnfb pb.1 (dinsert lnfw pw.1 pb.2)
    let d2 ← reindexLoop d1 L
    let q0 ← dpop ln0w d2
    let q1 ← dpop ln0b q0.2
    some (dinsert blk0b q1.1 (dinsert blk0w q0.1 q1.2))
  else
    some sd

end H3

namespace H3

/- `get_h3_config` (lines 29-60).  In Python an unrecognized name leaves the
local variables unbound and the `H3Config(...)` call raises
`UnboundLocalError`; the fallible outcome is modelled by `Option`. -/

/-- The architecture tuple: (hidden_size, num_hidden_layers,
num_attention_heads, attn_layer_idx). -/
abbrev H3Config := Nat × Nat × Nat × List Nat

def nm125 : Key := "H3-125m".data
def nm355 : Key := "H3-355m".data
def nm13b : Key := "H3-1.3b".data
def nm27b : Key := "H3-2.7b".data

/-- `get_h3_config`: resolve a model-size identifier to its fixed config. -/
def get_h3_config (model_name : Key) : Option H3Config :=
  if model_name = nm125 then some (768, 12, 12, [6])
  else if model_name = nm355 then some (1024, 24, 16, [8, 16])
  else if model_name = nm13b then some (2048, 24, 16, [8, 16])
  else if model_name = nm27b then some (2560, 32, 20, [8, 16, 24])
  else none

/- The logits verification step (lines 142-147).  The forward pass itself is
an external computation; the step is modelled as a function of the model
name and the (abstract, rational-valued) 1x3 logits slice.  `torch.allclose`
is called with `atol=1e-2` and torch's default `rtol=1e-5`. -/

/-- `torch.allclose` on a 1x3 slice: elementwise
`|a - b| <= atol + rtol * |b|`. -/
def allclose3 (a b : ℚ × ℚ × ℚ) (atol rtol : ℚ) : Bool :=
  decide (|a.1 - b.1| ≤ atol + rtol * |b.1|) &&
  decide (|a.2.1 - b.2.1| ≤ atol + rtol * |b.2.1|) &&
  decide (|a.2.2 - b.2.2| ≤ atol + rtol * |b.2.2|)

/-- The `expected_slice` assignment: only defined for the two small sizes. -/
def expectedSlice (model_name : Key) : Option (ℚ × ℚ × ℚ) :=
  if model_name = nm125 then some (5.9570, 7.0703, 4.4727)
  else if model_name = nm355 then some (4.5926, 6.2018, 4.6021)
  else none

/-- The guarded assertion `if model_name in ['H3-125m', 'H3-355m']: assert
torch.allclose(logits[0, 0, :3], expected_slice, atol=1e-2)`.
`some b` means the comparison was performed with outcome `b` (`false` =
`AssertionError`); `none` means no comparison happened at all. -/
def verifyStep (model_name : Key) (logits : ℚ × ℚ × ℚ) : Option Bool :=
  if model_name = nm125 ∨ model_name = nm355 then
    (expectedSlice model_name).map (fun e => allclose3 logits e (1 / 100) (1 / 100000))
  else
    none

end H3

namespace H3

/- The pytorch-lightning unwrap (lines 98-99).  A deserialized checkpoint is
a Python dict whose values are tensors, nested dicts, or other metadata. -/

inductive PyVal (α : Type) where
  /-- a tensor leaf -/
  | tensor : α → PyVal α
  /-- a nested dict (e.g. the `state_dict` field) -/
  | sub : List (Key × PyVal α) → PyVal α
  /-- non-tensor metadata such as the version marker's value -/
  | meta : PyVal α

def plVersionKey : Key := "pytorch-lightning_version".data
def stateDictKey : Key := "state_dict".data
def modelPre : Key := "model.".data

/-- Lines 98-99: if the version marker is present, rebuild the state dict
from the nested `state_dict` field, keeping exactly the `model.`-prefixed
keys with the prefix stripped (`k[len("model."):]`); `none` models the
`KeyError`/attribute error when `state_dict` is missing or not a dict. -/
def unwrapLightning {α : Type} (ckpt : Dict (PyVal α)) : Option (Dict (PyVal α)) :=
  if hasKey plVersionKey ckpt then
    match dlookup stateDictKey ckpt with
    | some (PyVal.sub inner) =>
      some (inner.filterMap (fun kv =>
        if isPre modelPre kv.1 then some (kv.1.drop modelPre.length, kv.2) else none))
    | _ => none
  else
    some ckpt

end H3

namespace H3

/- Canonical legacy mapping and expected key set, used to state the
bijection claim about the reindexing stage. -/

/-- The per-layer norm entries of a legacy checkpoint, layers `0..L-1`. -/
def legacyLayers {α : Type} (W1 B1 W2 B2 : Nat → α) : Nat → Dict α
  | 0 => []
  | l + 1 =>
    legacyLayers W1 B1 W2 B2 l ++
      [(layerKey l sufN1w, W1 l), (layerKey l sufN1b, B1 l),
       (layerKey l sufN2w, W2 l), (layerKey l sufN2b, B2 l)]

/-- A mapping containing exactly the norm1/norm2 weight+bias entries for
every layer below `L` plus the sentinel zero-th normalization entry. -/
def legacyDict {α : Type} (L : Nat) (W1 B1 W2 B2 : Nat → α) (sw sb : α) : Dict α :=
  legacyLayers W1 B1 W2 B2 L ++ [(ln0w, sw), (ln0b, sb)]

/-- The `norm2` keys for layers `0..L-1`. -/
def n2Keys : Nat → List Key
  | 0 => []
  | l + 1 => n2Keys l ++ [layerKey l sufN2w, layerKey l sufN2b]

/-- The `norm1` keys for layers `1..m`. -/
def n1Keys : Nat → List Key
  | 0 => []
  | m + 1 => n1Keys m ++ [layerKey (m + 1) sufN1w, layerKey (m + 1) sufN1b]

/-- All keys expected after the reindexing stage: the final normalization,
`norm2` for every layer, `norm1` for every positive layer, and the
destination-style layer-0 `norm1` keys. -/
def reindexedKeys (L : Nat) : List Key :=
  [lnfw, lnfb] ++ n2Keys L ++ n1Keys (L - 1) ++ [blk0w, blk0b]

/-- Decimal digit character test. -/
def isDig (c : Char) : Bool := decide (48 ≤ c.toNat) && decide (c.toNat ≤ 57)

/-- Numeric value of a digit character. -/
def digVal (c : Char) : Nat := c.toNat - 48

/-- Numeric value of a digit string. -/
def decVal (l : List Char) : Nat := l.foldl (fun a c => 10 * a + digVal c) 0

def blocksPre : Key := "h3.blocks.".data

/-- Destination-style per-layer key `f"h3.blocks.{l}" + suf`. -/
def blkKey (l : Nat) (suf : Key) : Key := blocksPre ++ toDec l ++ suf

def fnw : Key := "h3.final_layernorm.weight".data
def fnb : Key := "h3.final_layernorm.bias".data

/-- The four per-layer norm key suffixes. -/
def sufList : List Key := [sufN1w, sufN1b, sufN2w, sufN2b]

/-- The reindexed key carrying norm suffix `s` at layer `l`: layer 0's
norm1 sits under the destination-style `h3.blocks.0` keys, everything
else under source-style `backbone.layers` keys. -/
def keyOf (l : Nat) (s : Key) : Key :=
  if l = 0 ∧ (s = sufN1w ∨ s = sufN1b) then (if s = sufN1w then blk0w else blk0b)
  else layerKey l s

end H3


namespace H3

/-! ### Basic prefix / substring lemmas -/

theorem isPre_nil_iff (p : List Char) : isPre p [] = true ↔ p = [] := by
  cases p <;> simp [isPre]

theorem isPre_refl (p : List Char) : isPre p p = true := by
  induction p with
  | nil => rfl
  | cons c t ih => simp [isPre, ih]

theorem isPre_append_self (p rest : List Char) : isPre p (p ++ rest) = true := by
  induction p with
  | nil => rfl
  | cons c t ih => simp [isPre, ih]

theorem isPre_trans {a b c : List Char} (h1 : isPre a b = true) (h2 : isPre b c = true) :
    isPre a c = true := by
  induction a generalizing b c with
  | nil => rfl
  | cons x xs ih =>
    cases b with
    | nil => simp [isPre] at h1
    | cons y ys =>
      cases c with
      | nil => simp [isPre] at h2
      | cons z zs =>
        simp only [isPre, Bool.and_eq_true, decide_eq_true_eq] at h1 h2 ⊢
        exact ⟨h1.1.trans h2.1, ih h1.2 h2.2⟩

theorem mem_of_isPre {u s : List Char} (h : isPre u s = true) {c : Char} (hc : c ∈ u) :
    c ∈ s := by
  induction u generalizing s with
  | nil => cases hc
  | cons x xs ih =>
    cases s with
    | nil => simp [isPre] at h
    | cons y ys =>
      simp only [isPre, Bool.and_eq_true, decide_eq_true_eq] at h
      rcases List.mem_cons.mp hc with hc | hc
      · exact List.mem_cons.mpr (Or.inl (hc.trans h.1))
      · exact List.mem_cons.mpr (Or.inr (ih h.2 hc))

theorem spanPre {q a b : List Char} (h : isPre q (a ++ b) = true) :
    isPre q a = true ∨ isPre a q = true := by
  induction q generalizing a with
  | nil => exact Or.inl rfl
  | cons x xs ih =>
    cases a with
    | nil => exact Or.inr rfl
    | cons y ys =>
      simp only [List.cons_append, isPre, Bool.and_eq_true, decide_eq_true_eq] at h ⊢
      rcases ih h.2 with h2 | h2
      · exact Or.inl ⟨h.1, h2⟩
      · exact Or.inr ⟨h.1.symm, h2⟩

theorem isPre_append_right {q a : List Char} (h : isPre q a = true) (b : List Char) :
    isPre q (a ++ b) = true := by
  induction q generalizing a with
  | nil => rfl
  | cons x xs ih =>
    cases a with
    | nil => simp [isPre] at h
    | cons y ys =>
      simp only [isPre, Bool.and_eq_true, decide_eq_true_eq] at h
      simp only [List.cons_append, isPre, Bool.and_eq_true, decide_eq_true_eq]
      exact ⟨h.1, ih h.2⟩

theorem containsSub_of_isPre {q s : List Char} (h : isPre q s = true) :
    containsSub q s = true := by
  cases s with
  | nil => simpa [containsSub] using h
  | cons c t => simp [containsSub, h]

theorem containsSub_tail_false {q : List Char} {c : Char} {t : List Char}
    (h : containsSub q (c :: t) = false) :
    isPre q (c :: t) = false ∧ containsSub q t = false := by
  simpa [containsSub] using h

theorem containsSub_drop {q s : List Char} (h : containsSub q s = false) (n : Nat) :
    containsSub q (s.drop n) = false := by
  induction n generalizing s with
  | zero => simpa using h
  | succ m ih =>
    cases s with
    | nil => simpa using h
    | cons c t =>
      have := (containsSub_tail_false h).2
      simpa [List.drop] using ih this

theorem containsSub_append_left {q a : List Char} (h : containsSub q a = true)
    (b : List Char) : containsSub q (a ++ b) = true := by
  induction a with
  | nil =>
    have : q = [] := (isPre_nil_iff q).mp (by simpa [containsSub] using h)
    subst this
    cases b <;> simp [containsSub, isPre]
  | cons c t ih =>
    simp only [containsSub, Bool.or_eq_true] at h
    rcases h with h | h
    · have h2 : isPre q ((c :: t) ++ b) = true := isPre_append_right h b
      simp only [List.cons_append] at h2
      simp [containsSub, h2]
    · have := ih h
      simp [containsSub, this]

theorem containsSub_append_right {q b : List Char} (h : containsSub q b = true)
    (a : List Char) : containsSub q (a ++ b) = true := by
  induction a with
  | nil => simpa using h
  | cons c t ih => simp [containsSub, ih]

end H3

namespace H3

/-! ### replaceAll lemmas -/

theorem dropSelfApp (a b : List Char) : (a ++ b).drop a.length = b := by
  induction a with
  | nil => simp
  | cons c t ih => simp [ih]

theorem takeSelfApp (a b : List Char) : (a ++ b).take a.length = a := by
  induction a with
  | nil => simp
  | cons c t ih => simp [ih]

theorem replaceAllF_nil (p r : List Char) (f : Nat) : replaceAllF p r f [] = [] := by
  cases f <;> rfl

theorem replaceAllF_fuel (p r : List Char) :
    ∀ f g s, s.length ≤ f → s.length ≤ g → replaceAllF p r f s = replaceAllF p r g s := by
  intro f
  induction f with
  | zero =>
    intro g s hf _
    have : s = [] := List.eq_nil_of_length_eq_zero (Nat.le_zero.mp hf)
    subst this
    simp [replaceAllF_nil]
  | succ f ih =>
    intro g s hf hg
    cases s with
    | nil => simp [replaceAllF_nil]
    | cons c t =>
      cases g with
      | zero => simp at hg
      | succ g =>
        simp only [replaceAllF]
        by_cases h : p ≠ [] ∧ isPre p (c :: t) = true
        · simp only [if_pos h]
          have hplen : 1 ≤ p.length := by
            cases p with
            | nil => exact absurd rfl h.1
            | cons _ _ => simp
          have hlen : ((c :: t).drop p.length).length ≤ t.length := by
            simp only [List.length_drop, List.length_cons]
            omega
          have hf2 : ((c :: t).drop p.length).length ≤ f := by
            have h5 : t.length ≤ f := Nat.le_of_succ_le_succ hf
            omega
          have hg2 : ((c :: t).drop p.length).length ≤ g := by
            have h5 : t.length ≤ g := Nat.le_of_succ_le_succ hg
            omega
          rw [ih _ _ hf2 hg2]
        · simp only [if_neg h]
          have hf2 : t.length ≤ f := Nat.le_of_succ_le_succ hf
          have hg2 : t.length ≤ g := Nat.le_of_succ_le_succ hg
          rw [ih _ _ hf2 hg2]

theorem replaceAll_nil (p r : List Char) : replaceAll p r [] = [] := rfl

theorem replaceAll_cons_pos {p : List Char} (r : List Char) {c : Char} {t : List Char}
    (hp : p ≠ []) (hpre : isPre p (c :: t) = true) :
    replaceAll p r (c :: t) = r ++ replaceAll p r ((c :: t).drop p.length) := by
  have hplen : 1 ≤ p.length := by
    cases p with
    | nil => exact absurd rfl hp
    | cons _ _ => simp
  have hlen : ((c :: t).drop p.length).length ≤ t.length := by
    simp only [List.length_drop, List.length_cons]
    omega
  show replaceAllF p r (t.length + 1) (c :: t) = _
  simp only [replaceAllF, if_pos (And.intro hp hpre)]
  rw [replaceAllF_fuel p r t.length ((c :: t).drop p.length).length _ hlen (Nat.le_refl _)]
  rfl

theorem replaceAll_cons_neg {p : List Char} (r : List Char) {c : Char} {t : List Char}
    (h : ¬(p ≠ [] ∧ isPre p (c :: t) = true)) :
    replaceAll p r (c :: t) = c :: replaceAll p r t := by
  show replaceAllF p r (t.length + 1) (c :: t) = _
  simp only [replaceAllF, if_neg h]
  rfl

theorem replaceAll_id_of_not_contains {p : List Char} (r : List Char) :
    ∀ s, containsSub p s = false → replaceAll p r s = s := by
  intro s
  induction s with
  | nil => intro _; rfl
  | cons c t ih =>
    intro h
    have h2 := containsSub_tail_false h
    rw [replaceAll_cons_neg r (by simp [h2.1])]
    rw [ih h2.2]

theorem replaceAll_pre_append {p : List Char} (r : List Char) (hp : p ≠ []) (rest : List Char) :
    replaceAll p r (p ++ rest) = r ++ replaceAll p r rest := by
  cases p with
  | nil => exact absurd rfl hp
  | cons pc pt =>
    have hpre : isPre (pc :: pt) (pc :: (pt ++ rest)) = true := by
      simpa [List.cons_append] using isPre_append_self (pc :: pt) rest
    rw [List.cons_append, replaceAll_cons_pos r hp hpre]
    congr 1
    rw [← List.cons_append, dropSelfApp]

theorem isPre_replaceAll_rev (p rt : List Char) (rh : Char) :
    ∀ f s u, s.length ≤ f → (∀ c ∈ u, c ≠ rh) →
      isPre u (replaceAll p (rh :: rt) s) = true → isPre u s = true := by
  intro f
  induction f with
  | zero =>
    intro s u hf _ h
    have : s = [] := List.eq_nil_of_length_eq_zero (Nat.le_zero.mp hf)
    subst this
    simpa [replaceAll_nil] using h
  | succ f ih =>
    intro s u hf hu h
    cases s with
    | nil => simpa [replaceAll_nil] using h
    | cons c t =>
      by_cases hcond : p ≠ [] ∧ isPre p (c :: t) = true
      · rw [replaceAll_cons_pos _ hcond.1 hcond.2] at h
        cases u with
        | nil => rfl
        | cons uh ut =>
          simp only [List.cons_append, isPre, Bool.and_eq_true, decide_eq_true_eq] at h
          exact absurd h.1 (hu uh (List.mem_cons_self _ _))
      · rw [replaceAll_cons_neg _ hcond] at h
        cases u with
        | nil => rfl
        | cons uh ut =>
          simp only [isPre, Bool.and_eq_true, decide_eq_true_eq] at h ⊢
          have ht : t.length ≤ f := Nat.le_of_succ_le_succ hf
          have hu2 : ∀ x ∈ ut, x ≠ rh := fun x hx => hu x (List.mem_cons_of_mem _ hx)
          exact ⟨h.1, ih t ut ht hu2 h.2⟩

end H3

namespace H3

/-! ### No-new-occurrence lemmas: replacing a pattern by an
`rh :: rt`-shaped replacement cannot create occurrences of the patterns
of interest. -/

theorem containsSub_append_false {q b : List Char} (_hq : q ≠ [])
    (hb : containsSub q b = false) :
    ∀ a, (∀ v ∈ a.tails, v ≠ [] → isPre v q = false ∧ isPre q v = false) →
    containsSub q (a ++ b) = false := by
  intro a
  induction a with
  | nil => intro _; simpa using hb
  | cons c t ih =>
    intro h
    have hself := h (c :: t) (by rw [List.tails_cons]; exact List.mem_cons_self _ _) (by simp)
    have h2 : containsSub q (t ++ b) = false := by
      apply ih
      intro v hv hvne
      exact h v (by rw [List.tails_cons]; exact List.mem_cons_of_mem _ hv) hvne
    have h1 : isPre q (c :: (t ++ b)) = false := by
      cases hx : isPre q (c :: (t ++ b)) with
      | false => rfl
      | true =>
        have hx2 : isPre q ((c :: t) ++ b) = true := by simpa [List.cons_append] using hx
        rcases spanPre hx2 with hy | hy
        · rw [hself.2] at hy; exact Bool.noConfusion hy
        · rw [hself.1] at hy; exact Bool.noConfusion hy
    simp [containsSub, h1, h2]

theorem ne_nil_of_isPre {p q : List Char} (hp : p ≠ []) (hpq : isPre p q = true) :
    q ≠ [] := by
  cases p with
  | nil => exact absurd rfl hp
  | cons x xs =>
    cases q with
    | nil => simp [isPre] at hpq
    | cons y ys => simp

theorem noOcc_replaceAll_of_isPre (p q rt : List Char) (rh : Char) (hp : p ≠ [])
    (hpq : isPre p q = true) (hqh : ∀ c ∈ q, c ≠ rh)
    (hcross : ∀ v ∈ rt.tails, v ≠ [] → isPre v q = false ∧ isPre q v = false) :
    ∀ f s, s.length ≤ f → containsSub q (replaceAll p (rh :: rt) s) = false := by
  have hqne : q ≠ [] := ne_nil_of_isPre hp hpq
  intro f
  induction f with
  | zero =>
    intro s hf
    have : s = [] := List.eq_nil_of_length_eq_zero (Nat.le_zero.mp hf)
    subst this
    cases q with
    | nil => exact absurd rfl hqne
    | cons _ _ => simp [replaceAll_nil, containsSub, isPre]
  | succ f ih =>
    intro s hf
    cases s with
    | nil =>
      cases q with
      | nil => exact absurd rfl hqne
      | cons _ _ => simp [replaceAll_nil, containsSub, isPre]
    | cons c t =>
      have ht : t.length ≤ f := Nat.le_of_succ_le_succ hf
      by_cases hcond : p ≠ [] ∧ isPre p (c :: t) = true
      · rw [replaceAll_cons_pos _ hcond.1 hcond.2]
        have hplen : 1 ≤ p.length := by
          cases p with
          | nil => exact absurd rfl hp
          | cons _ _ => simp
        have hdlen : ((c :: t).drop p.length).length ≤ f := by
          simp only [List.length_drop, List.length_cons]
          omega
        have hrest := ih ((c :: t).drop p.length) hdlen
        have happ : containsSub q (rt ++ replaceAll p (rh :: rt) ((c :: t).drop p.length)) = false :=
          containsSub_append_false hqne hrest rt hcross
        have hhead : isPre q ((rh :: rt) ++ replaceAll p (rh :: rt) ((c :: t).drop p.length)) = false := by
          cases q with
          | nil => exact absurd rfl hqne
          | cons qh qt =>
            cases hx : isPre (qh :: qt) ((rh :: rt) ++ replaceAll p (rh :: rt) ((c :: t).drop p.length)) with
            | false => rfl
            | true =>
              simp only [List.cons_append, isPre, Bool.and_eq_true, decide_eq_true_eq] at hx
              exact absurd hx.1 (hqh qh (List.mem_cons_self _ _))
        simp only [List.cons_append, containsSub] at hhead happ ⊢
        simp [hhead, happ]
      · rw [replaceAll_cons_neg _ hcond]
        have h2 := ih t ht
        have h1 : isPre q (c :: replaceAll p (rh :: rt) t) = false := by
          cases q with
          | nil => exact absurd rfl hqne
          | cons qh qt =>
            cases hx : isPre (qh :: qt) (c :: replaceAll p (rh :: rt) t) with
            | false => rfl
            | true =>
              simp only [isPre, Bool.and_eq_true, decide_eq_true_eq] at hx
              have hqt : isPre qt t = true :=
                isPre_replaceAll_rev p rt rh t.length t qt (Nat.le_refl _)
                  (fun x hx2 => hqh x (List.mem_cons_of_mem _ hx2)) hx.2
              have hqct : isPre (qh :: qt) (c :: t) = true := by
                simp [isPre, hx.1, hqt]
              have : isPre p (c :: t) = true := isPre_trans hpq hqct
              exact absurd (And.intro hp this) hcond
        simp [containsSub, h1, h2]

theorem noOcc_replaceAll_of_not_contains (p q rt : List Char) (rh : Char)
    (hqh : ∀ c ∈ q, c ≠ rh)
    (hcross : ∀ v ∈ rt.tails, v ≠ [] → isPre v q = false ∧ isPre q v = false) :
    ∀ f s, s.length ≤ f → containsSub q s = false →
      containsSub q (replaceAll p (rh :: rt) s) = false := by
  intro f
  induction f with
  | zero =>
    intro s hf hq
    have : s = [] := List.eq_nil_of_length_eq_zero (Nat.le_zero.mp hf)
    subst this
    simpa [replaceAll_nil] using hq
  | succ f ih =>
    intro s hf hq
    have hqne : q ≠ [] := by
      intro hq2
      subst hq2
      cases s with
      | nil => simp [containsSub, isPre] at hq
      | cons c t => simp [containsSub, isPre] at hq
    cases s with
    | nil => simpa [replaceAll_nil] using hq
    | cons c t =>
      have ht : t.length ≤ f := Nat.le_of_succ_le_succ hf
      have hqt := containsSub_tail_false hq
      by_cases hcond : p ≠ [] ∧ isPre p (c :: t) = true
      · rw [replaceAll_cons_pos _ hcond.1 hcond.2]
        have hplen : 1 ≤ p.length := by
          cases hp2 : p with
          | nil => exact absurd hp2 hcond.1
          | cons _ _ => simp
        have hdlen : ((c :: t).drop p.length).length ≤ f := by
          simp only [List.length_drop, List.length_cons]
          omega
        have hqdrop : containsSub q ((c :: t).drop p.length) = false :=
          containsSub_drop hq p.length
        have hrest := ih ((c :: t).drop p.length) hdlen hqdrop
        have happ : containsSub q (rt ++ replaceAll p (rh :: rt) ((c :: t).drop p.length)) = false :=
          containsSub_append_false hqne hrest rt hcross
        have hhead : isPre q ((rh :: rt) ++ replaceAll p (rh :: rt) ((c :: t).drop p.length)) = false := by
          cases q with
          | nil => exact absurd rfl hqne
          | cons qh qt =>
            cases hx : isPre (qh :: qt) ((rh :: rt) ++ replaceAll p (rh :: rt) ((c :: t).drop p.length)) with
            | false => rfl
            | true =>
              simp only [List.cons_append, isPre, Bool.and_eq_true, decide_eq_true_eq] at hx
              exact absurd hx.1 (hqh qh (List.mem_cons_self _ _))
        simp only [List.cons_append, containsSub] at hhead happ ⊢
        simp [hhead, happ]
      · rw [replaceAll_cons_neg _ hcond]
        have h2 := ih t ht hqt.2
        have h1 : isPre q (c :: replaceAll p (rh :: rt) t) = false := by
          cases q with
          | nil => exact absurd rfl hqne
          | cons qh qt =>
            cases hx : isPre (qh :: qt) (c :: replaceAll p (rh :: rt) t) with
            | false => rfl
            | true =>
              simp only [isPre, Bool.and_eq_true, decide_eq_true_eq] at hx
              have hqt2 : isPre qt t = true :=
                isPre_replaceAll_rev p rt rh t.length t qt (Nat.le_refl _)
                  (fun x hx2 => hqh x (List.mem_cons_of_mem _ hx2)) hx.2
              have hqct : isPre (qh :: qt) (c :: t) = true := by
                simp [isPre, hx.1, hqt2]
              have hcc := containsSub_of_isPre hqct
              rw [hq] at hcc
              exact Bool.noConfusion hcc
        simp [containsSub, h1, h2]

end H3

namespace H3

/-! ### rename_key analysis -/

theorem noEmb_after_r1 (s : List Char) :
    containsSub pEmb (replaceAll pBackbone rH3 s) = false := by
  have h : rH3 = 'h' :: "3".data := by decide
  rw [h]
  exact noOcc_replaceAll_of_isPre pBackbone pEmb ("3".data) 'h'
    (by decide) (by decide) (by decide) (by decide) s.length s (Nat.le_refl _)

theorem noLayers_after_r1 (s : List Char) :
    containsSub pLayers (replaceAll pBackbone rH3 s) = false := by
  have h : rH3 = 'h' :: "3".data := by decide
  rw [h]
  exact noOcc_replaceAll_of_isPre pBackbone pLayers ("3".data) 'h'
    (by decide) (by decide) (by decide) (by decide) s.length s (Nat.le_refl _)

theorem noLnf_after_r1 (s : List Char) :
    containsSub pLnf (replaceAll pBackbone rH3 s) = false := by
  have h : rH3 = 'h' :: "3".data := by decide
  rw [h]
  exact noOcc_replaceAll_of_isPre pBackbone pLnf ("3".data) 'h'
    (by decide) (by decide) (by decide) (by decide) s.length s (Nat.le_refl _)

theorem noLayers_after_r2 (s : List Char) :
    containsSub pLayers (replaceAll pLayers rBlocks s) = false := by
  have h : rBlocks = 'h' :: "3.blocks".data := by decide
  rw [h]
  exact noOcc_replaceAll_of_isPre pLayers pLayers ("3.blocks".data) 'h'
    (by decide) (isPre_refl _) (by decide) (by decide) s.length s (Nat.le_refl _)

theorem noEmb_after_r2 {s : List Char} (hs : containsSub pEmb s = false) :
    containsSub pEmb (replaceAll pLayers rBlocks s) = false := by
  have h : rBlocks = 'h' :: "3.blocks".data := by decide
  rw [h]
  exact noOcc_replaceAll_of_not_contains pLayers pEmb ("3.blocks".data) 'h'
    (by decide) (by decide) s.length s (Nat.le_refl _) hs

theorem noLnf_after_r2 {s : List Char} (hs : containsSub pLnf s = false) :
    containsSub pLnf (replaceAll pLayers rBlocks s) = false := by
  have h : rBlocks = 'h' :: "3.blocks".data := by decide
  rw [h]
  exact noOcc_replaceAll_of_not_contains pLayers pLnf ("3.blocks".data) 'h'
    (by decide) (by decide) s.length s (Nat.le_refl _) hs

theorem noLnf_after_r3 (s : List Char) :
    containsSub pLnf (replaceAll pLnf rFinal s) = false := by
  have h : rFinal = 'h' :: "3.final_layernorm".data := by decide
  rw [h]
  exact noOcc_replaceAll_of_isPre pLnf pLnf ("3.final_layernorm".data) 'h'
    (by decide) (isPre_refl _) (by decide) (by decide) s.length s (Nat.le_refl _)

theorem noEmb_after_r3 {s : List Char} (hs : containsSub pEmb s = false) :
    containsSub pEmb (replaceAll pLnf rFinal s) = false := by
  have h : rFinal = 'h' :: "3.final_layernorm".data := by decide
  rw [h]
  exact noOcc_replaceAll_of_not_contains pLnf pEmb ("3.final_layernorm".data) 'h'
    (by decide) (by decide) s.length s (Nat.le_refl _) hs

theorem noLayers_after_r3 {s : List Char} (hs : containsSub pLayers s = false) :
    containsSub pLayers (replaceAll pLnf rFinal s) = false := by
  have h : rFinal = 'h' :: "3.final_layernorm".data := by decide
  rw [h]
  exact noOcc_replaceAll_of_not_contains pLnf pLayers ("3.final_layernorm".data) 'h'
    (by decide) (by decide) s.length s (Nat.le_refl _) hs

theorem rename_key_case1 {k : Key} (hE : containsSub pEmb k = true) :
    rename_key k = replaceAll pBackbone rH3 k := by
  have h1 := noLayers_after_r1 k
  have h2 := noLnf_after_r1 k
  simp [rename_key, hE, h1, h2]

theorem rename_key_case2 {k : Key} (hE : containsSub pEmb k = false)
    (hL : containsSub pLayers k = true) (hF : containsSub pLnf k = false) :
    rename_key k = replaceAll pLayers rBlocks k := by
  have h1 := noLnf_after_r2 hF
  simp [rename_key, hE, hL, h1]

theorem rename_key_case3 {k : Key} (hE : containsSub pEmb k = false)
    (hL : containsSub pLayers k = false) (hF : containsSub pLnf k = true) :
    rename_key k = replaceAll pLnf rFinal k := by
  simp [rename_key, hE, hL, hF]

theorem rename_key_id {k : Key} (hE : containsSub pEmb k = false)
    (hL : containsSub pLayers k = false) (hF : containsSub pLnf k = false) :
    rename_key k = k := by
  simp [rename_key, hE, hL, hF]

/-- After `rename_key`, none of the three trigger substrings is present. -/
theorem rename_key_no_patterns (k : Key) :
    containsSub pEmb (rename_key k) = false ∧
    containsSub pLayers (rename_key k) = false ∧
    containsSub pLnf (rename_key k) = false := by
  cases hE : containsSub pEmb k with
  | true =>
    rw [rename_key_case1 hE]
    exact ⟨noEmb_after_r1 k, noLayers_after_r1 k, noLnf_after_r1 k⟩
  | false =>
    cases hL : containsSub pLayers k with
    | true =>
      have hE2 : containsSub pEmb (replaceAll pLayers rBlocks k) = false := noEmb_after_r2 hE
      have hL2 : containsSub pLayers (replaceAll pLayers rBlocks k) = false := noLayers_after_r2 k
      cases hF2 : containsSub pLnf (replaceAll pLayers rBlocks k) with
      | true =>
        have hrw : rename_key k =
            replaceAll pLnf rFinal (replaceAll pLayers rBlocks k) := by
          simp [rename_key, hE, hL, hF2]
        rw [hrw]
        exact ⟨noEmb_after_r3 hE2, noLayers_after_r3 hL2, noLnf_after_r3 _⟩
      | false =>
        have hrw : rename_key k = replaceAll pLayers rBlocks k := by
          simp [rename_key, hE, hL, hF2]
        rw [hrw]
        exact ⟨hE2, hL2, hF2⟩
    | false =>
      cases hF : containsSub pLnf k with
      | true =>
        rw [rename_key_case3 hE hL hF]
        exact ⟨noEmb_after_r3 hE, noLayers_after_r3 hL, noLnf_after_r3 _⟩
      | false =>
        rw [rename_key_id hE hL hF]
        exact ⟨hE, hL, hF⟩

/-- `rename_key` is idempotent. -/
theorem rename_key_idem_aux (k : Key) : rename_key (rename_key k) = rename_key k := by
  obtain ⟨h1, h2, h3⟩ := rename_key_no_patterns k
  exact rename_key_id h1 h2 h3

end H3

namespace H3

/-! ### Decimal rendering: digits, injectivity -/

theorem digitChar_isDig (d : Nat) : isDig (digitChar d) = true := by
  unfold digitChar
  split_ifs <;> decide

theorem digVal_digitChar {d : Nat} (h : d < 10) : digVal (digitChar d) = d := by
  unfold digitChar
  split_ifs with h0 h1 h2 h3 h4 h5 h6 h7 h8
  · subst h0; decide
  · subst h1; decide
  · subst h2; decide
  · subst h3; decide
  · subst h4; decide
  · subst h5; decide
  · subst h6; decide
  · subst h7; decide
  · subst h8; decide
  · have h9 : d = 9 := by omega
    subst h9; decide

theorem toDecF_fuel : ∀ f g n, n < f → n < g → toDecF f n = toDecF g n := by
  intro f
  induction f with
  | zero => intro g n hf; omega
  | succ f ih =>
    intro g n hf hg
    cases g with
    | zero => omega
    | succ g =>
      simp only [toDecF]
      by_cases h : n < 10
      · simp [h]
      · simp only [if_neg h]
        have hd : n / 10 < n := Nat.div_lt_self (by omega) (by omega)
        rw [ih g (n / 10) (by omega) (by omega)]

theorem toDec_small {n : Nat} (h : n < 10) : toDec n = [digitChar n] := by
  simp [toDec, toDecF, h]

theorem toDec_big {n : Nat} (h : 10 ≤ n) :
    toDec n = toDec (n / 10) ++ [digitChar (n % 10)] := by
  have h2 : ¬ n < 10 := by omega
  have hd : n / 10 < n := Nat.div_lt_self (by omega) (by omega)
  show toDecF (n + 1) n = toDecF (n / 10 + 1) (n / 10) ++ [digitChar (n % 10)]
  have hstep : toDecF (n + 1) n =
      if n < 10 then [digitChar n] else toDecF n (n / 10) ++ [digitChar (n % 10)] := rfl
  rw [hstep, if_neg h2]
  congr 1
  exact toDecF_fuel n (n / 10 + 1) (n / 10) (by omega) (by omega)

theorem toDec_ne_nil (n : Nat) : toDec n ≠ [] := by
  by_cases h : n < 10
  · rw [toDec_small h]; simp
  · rw [toDec_big (by omega)]; simp

theorem toDec_digits (n : Nat) : ∀ c ∈ toDec n, isDig c = true := by
  induction n using Nat.strong_induction_on with
  | _ n ih =>
    by_cases h : n < 10
    · rw [toDec_small h]
      intro c hc
      rw [List.mem_singleton.mp hc]
      exact digitChar_isDig n
    · rw [toDec_big (by omega)]
      intro c hc
      rcases List.mem_append.mp hc with hc | hc
      · exact ih (n / 10) (Nat.div_lt_self (by omega) (by omega)) c hc
      · rw [List.mem_singleton.mp hc]
        exact digitChar_isDig _

theorem decVal_append_digit (a : List Char) (c : Char) :
    decVal (a ++ [c]) = 10 * decVal a + digVal c := by
  simp [decVal, List.foldl_append]

theorem decVal_toDec : ∀ n, decVal (toDec n) = n := by
  intro n
  induction n using Nat.strong_induction_on with
  | _ n ih =>
    by_cases h : n < 10
    · rw [toDec_small h]
      have : decVal [digitChar n] = digVal (digitChar n) := by simp [decVal]
      rw [this, digVal_digitChar h]
    · rw [toDec_big (by omega), decVal_append_digit]
      rw [ih (n / 10) (Nat.div_lt_self (by omega) (by omega))]
      rw [digVal_digitChar (Nat.mod_lt n (by omega))]
      omega

theorem toDec_inj {a b : Nat} (h : toDec a = toDec b) : a = b := by
  have := congrArg decVal h
  rwa [decVal_toDec, decVal_toDec] at this

/-! ### Key distinctness -/

theorem app_cancel_l : ∀ (a b c : List Char), a ++ b = a ++ c → b = c := by
  intro a
  induction a with
  | nil => intro b c h; simpa using h
  | cons x xs ih =>
    intro b c h
    simp only [List.cons_append, List.cons.injEq] at h
    exact ih b c h.2

theorem digits_split {xc yc : Char} (hxc : isDig xc = false) (hyc : isDig yc = false) :
    ∀ (a : List Char) (b : List Char) (xt yt : List Char),
      (∀ c ∈ a, isDig c = true) → (∀ c ∈ b, isDig c = true) →
      a ++ xc :: xt = b ++ yc :: yt → a = b := by
  intro a
  induction a with
  | nil =>
    intro b xt yt _ hb h
    cases b with
    | nil => rfl
    | cons bc bt =>
      simp only [List.nil_append, List.cons_append, List.cons.injEq] at h
      have : isDig bc = true := hb bc (List.mem_cons_self _ _)
      rw [← h.1] at this
      rw [hxc] at this
      exact Bool.noConfusion this
  | cons ac at2 ih =>
    intro b xt yt ha hb h
    cases b with
    | nil =>
      simp only [List.cons_append, List.nil_append, List.cons.injEq] at h
      have : isDig ac = true := ha ac (List.mem_cons_self _ _)
      rw [h.1] at this
      rw [hyc] at this
      exact Bool.noConfusion this
    | cons bc bt =>
      simp only [List.cons_append, List.cons.injEq] at h
      have h2 := ih bt xt yt (fun c hc => ha c (List.mem_cons_of_mem _ hc))
        (fun c hc => hb c (List.mem_cons_of_mem _ hc)) h.2
      rw [h.1, h2]

/-- Full per-layer-key injectivity: equal keys force equal indices and
equal suffixes, provided both suffixes start with a non-digit. -/
theorem layerKey_inj {l l2 : Nat} {s s2 : Key}
    (hs : ∃ c t, s = c :: t ∧ isDig c = false)
    (hs2 : ∃ c t, s2 = c :: t ∧ isDig c = false)
    (h : layerKey l s = layerKey l2 s2) : l = l2 ∧ s = s2 := by
  obtain ⟨c, t, rfl, hc⟩ := hs
  obtain ⟨c2, t2, rfl, hc2⟩ := hs2
  unfold layerKey at h
  rw [List.append_assoc, List.append_assoc] at h
  have h2 := app_cancel_l _ _ _ h
  have h3 : toDec l = toDec l2 :=
    digits_split hc hc2 (toDec l) (toDec l2) t t2 (toDec_digits l) (toDec_digits l2) h2
  refine ⟨toDec_inj h3, ?_⟩
  rw [h3] at h2
  exact app_cancel_l _ _ _ h2

/-- Destination-style per-layer-key injectivity. -/
theorem blkKey_inj {l l2 : Nat} {s s2 : Key}
    (hs : ∃ c t, s = c :: t ∧ isDig c = false)
    (hs2 : ∃ c t, s2 = c :: t ∧ isDig c = false)
    (h : blkKey l s = blkKey l2 s2) : l = l2 ∧ s = s2 := by
  obtain ⟨c, t, rfl, hc⟩ := hs
  obtain ⟨c2, t2, rfl, hc2⟩ := hs2
  unfold blkKey at h
  rw [List.append_assoc, List.append_assoc] at h
  have h2 := app_cancel_l _ _ _ h
  have h3 : toDec l = toDec l2 :=
    digits_split hc hc2 (toDec l) (toDec l2) t t2 (toDec_digits l) (toDec_digits l2) h2
  refine ⟨toDec_inj h3, ?_⟩
  rw [h3] at h2
  exact app_cancel_l _ _ _ h2

/-- A layer key never equals a key whose first 16 characters differ from
`"backbone.layers."`. -/
theorem layerKey_ne {x : Key} (hx : x.take 16 ≠ layersPre) (l : Nat) (s : Key) :
    layerKey l s ≠ x := by
  intro h
  apply hx
  have h2 := congrArg (List.take 16) h
  rw [← h2]
  unfold layerKey
  rw [List.append_assoc]
  have hlen : layersPre.length = 16 := by decide
  rw [← hlen, takeSelfApp]

/-- A destination block key never equals a key whose first 10 characters
differ from `"h3.blocks."`. -/
theorem blkKey_ne {x : Key} (hx : x.take 10 ≠ blocksPre) (l : Nat) (s : Key) :
    blkKey l s ≠ x := by
  intro h
  apply hx
  have h2 := congrArg (List.take 10) h
  rw [← h2]
  unfold blkKey
  rw [List.append_assoc]
  have hlen : blocksPre.length = 10 := by decide
  rw [← hlen, takeSelfApp]

end H3

namespace H3

/-! ### Dict lemmas -/

variable {α : Type}

theorem dkeys_nil : dkeys ([] : Dict α) = [] := rfl

theorem dkeys_cons (k : Key) (v : α) (d : Dict α) :
    dkeys ((k, v) :: d) = k :: dkeys d := rfl

theorem dkeys_append (a b : Dict α) : dkeys (a ++ b) = dkeys a ++ dkeys b := by
  simp [dkeys]

theorem dlookup_none_iff {k : Key} {d : Dict α} :
    dlookup k d = none ↔ k ∉ dkeys d := by
  induction d with
  | nil => simp [dlookup, dkeys]
  | cons kv rest ih =>
    obtain ⟨k2, v2⟩ := kv
    by_cases h : k = k2
    · subst h
      simp [dlookup, dkeys_cons]
    · simp [dlookup, h, dkeys_cons, ih]

theorem dlookup_isSome_iff {k : Key} {d : Dict α} :
    (dlookup k d).isSome = true ↔ k ∈ dkeys d := by
  rw [Option.isSome_iff_ne_none]
  constructor
  · intro h
    by_contra h2
    exact h (dlookup_none_iff.mpr h2)
  · intro h h2
    exact (dlookup_none_iff.mp h2) h

theorem dlookup_mem_dkeys {k : Key} {d : Dict α} {v : α} (h : dlookup k d = some v) :
    k ∈ dkeys d := by
  apply dlookup_isSome_iff.mp
  rw [h]
  rfl

theorem dlookup_dinsert_self (k : Key) (v : α) (d : Dict α) :
    dlookup k (dinsert k v d) = some v := by
  induction d with
  | nil => simp [dinsert, dlookup]
  | cons kv rest ih =>
    obtain ⟨k2, v2⟩ := kv
    by_cases h : k = k2
    · subst h
      simp [dinsert, dlookup]
    · simp [dinsert, h, dlookup, ih]

theorem dlookup_dinsert_ne {k k2 : Key} (h : k2 ≠ k) (v : α) (d : Dict α) :
    dlookup k2 (dinsert k v d) = dlookup k2 d := by
  induction d with
  | nil => simp [dinsert, dlookup, h]
  | cons kv rest ih =>
    obtain ⟨k3, v3⟩ := kv
    by_cases h2 : k = k3
    · subst h2
      simp [dinsert, dlookup, h]
    · by_cases h3 : k2 = k3
      · subst h3
        simp [dinsert, h2, dlookup]
      · simp [dinsert, h2, dlookup, h3, ih]

theorem mem_dkeys_dinsert {m k : Key} (v : α) (d : Dict α) :
    m ∈ dkeys (dinsert k v d) ↔ m = k ∨ m ∈ dkeys d := by
  induction d with
  | nil => simp [dinsert, dkeys]
  | cons kv rest ih =>
    obtain ⟨k2, v2⟩ := kv
    by_cases h : k = k2
    · subst h
      have hrw : dinsert k v ((k, v2) :: rest) = (k, v) :: rest := by
        simp [dinsert]
      rw [hrw]
      simp only [dkeys_cons, List.mem_cons]
      tauto
    · simp only [dinsert, if_neg h, dkeys_cons, List.mem_cons, ih]
      tauto

theorem dkeys_dinsert_nodup {k : Key} (v : α) {d : Dict α}
    (h : (dkeys d).Nodup) : (dkeys (dinsert k v d)).Nodup := by
  induction d with
  | nil => simp [dinsert, dkeys]
  | cons kv rest ih =>
    obtain ⟨k2, v2⟩ := kv
    rw [dkeys_cons] at h
    have h1 := List.nodup_cons.mp h
    by_cases h2 : k = k2
    · subst h2
      simp only [dinsert, if_pos rfl, dkeys_cons]
      exact List.nodup_cons.mpr h1
    · simp only [dinsert, if_neg h2, dkeys_cons]
      apply List.nodup_cons.mpr
      constructor
      · intro hmem
        rcases (mem_dkeys_dinsert v rest).mp hmem with h3 | h3
        · exact h2 (h3.symm ▸ rfl)
        · exact h1.1 h3
      · exact ih h1.2

theorem dpop_of_lookup {k : Key} {d : Dict α} {v : α} (h : dlookup k d = some v) :
    ∃ d2, dpop k d = some (v, d2) ∧
      (∀ k2, k2 ≠ k → dlookup k2 d2 = dlookup k2 d) ∧
      (∀ m, m ∈ dkeys d2 → m ∈ dkeys d) ∧
      ((dkeys d).Nodup → (dkeys d2).Nodup ∧ dlookup k d2 = none) := by
  induction d with
  | nil => simp [dlookup] at h
  | cons kv rest ih =>
    obtain ⟨k2, v2⟩ := kv
    by_cases hk : k = k2
    · subst hk
      have hv : v2 = v := by simpa [dlookup] using h
      subst hv
      refine ⟨rest, by simp [dpop], ?_, ?_, ?_⟩
      · intro k3 h3
        simp [dlookup, h3]
      · intro m hm
        rw [dkeys_cons]
        exact List.mem_cons_of_mem _ hm
      · intro hnd
        rw [dkeys_cons] at hnd
        have h1 := List.nodup_cons.mp hnd
        exact ⟨h1.2, dlookup_none_iff.mpr h1.1⟩
    · simp only [dlookup, if_neg hk] at h
      obtain ⟨d2, hpop, hframe, hsub, hnd⟩ := ih h
      refine ⟨(k2, v2) :: d2, ?_, ?_, ?_, ?_⟩
      · simp [dpop, hk, hpop]
      · intro k3 h3
        by_cases h4 : k3 = k2
        · subst h4
          simp [dlookup]
        · simp [dlookup, h4, hframe k3 h3]
      · intro m hm
        rw [dkeys_cons] at hm ⊢
        rcases List.mem_cons.mp hm with hm | hm
        · exact List.mem_cons.mpr (Or.inl hm)
        · exact List.mem_cons.mpr (Or.inr (hsub m hm))
      · intro hnd2
        rw [dkeys_cons] at hnd2
        have h1 := List.nodup_cons.mp hnd2
        obtain ⟨hnd3, hnone⟩ := hnd h1.2
        constructor
        · rw [dkeys_cons]
          apply List.nodup_cons.mpr
          exact ⟨fun hm => h1.1 (hsub k2 hm), hnd3⟩
        · simp [dlookup, hk, hnone]

end H3

namespace H3

/-! ### Concrete key-distinctness instances -/

theorem shape_n1w : ∃ c t, sufN1w = c :: t ∧ isDig c = false :=
  ⟨'.', "norm1.weight".data, by decide, by decide⟩

theorem shape_n1b : ∃ c t, sufN1b = c :: t ∧ isDig c = false :=
  ⟨'.', "norm1.bias".data, by decide, by decide⟩

theorem shape_n2w : ∃ c t, sufN2w = c :: t ∧ isDig c = false :=
  ⟨'.', "norm2.weight".data, by decide, by decide⟩

theorem shape_n2b : ∃ c t, sufN2b = c :: t ∧ isDig c = false :=
  ⟨'.', "norm2.bias".data, by decide, by decide⟩

/-- Layer keys with different suffixes differ. -/
theorem lk_ne_of_suf {s s2 : Key}
    (hs : ∃ c t, s = c :: t ∧ isDig c = false)
    (hs2 : ∃ c t, s2 = c :: t ∧ isDig c = false)
    (hne : s ≠ s2) (l l2 : Nat) : layerKey l s ≠ layerKey l2 s2 := by
  intro h
  exact hne (layerKey_inj hs hs2 h).2

/-- Layer keys with different indices differ. -/
theorem lk_ne_of_idx {s s2 : Key}
    (hs : ∃ c t, s = c :: t ∧ isDig c = false)
    (hs2 : ∃ c t, s2 = c :: t ∧ isDig c = false)
    {l l2 : Nat} (hne : l ≠ l2) : layerKey l s ≠ layerKey l2 s2 := by
  intro h
  exact hne (layerKey_inj hs hs2 h).1

theorem lk_ne_ln0w (l : Nat) (s : Key) : layerKey l s ≠ ln0w :=
  layerKey_ne (by decide) l s

theorem lk_ne_ln0b (l : Nat) (s : Key) : layerKey l s ≠ ln0b :=
  layerKey_ne (by decide) l s

theorem lk_ne_lnfw (l : Nat) (s : Key) : layerKey l s ≠ lnfw :=
  layerKey_ne (by decide) l s

theorem lk_ne_lnfb (l : Nat) (s : Key) : layerKey l s ≠ lnfb :=
  layerKey_ne (by decide) l s

theorem lk_ne_blk0w (l : Nat) (s : Key) : layerKey l s ≠ blk0w :=
  layerKey_ne (by decide) l s

theorem lk_ne_blk0b (l : Nat) (s : Key) : layerKey l s ≠ blk0b :=
  layerKey_ne (by decide) l s

end H3

namespace H3

/-! ### reindexBody characterization -/

variable {α : Type}

theorem reindexBody_zero_spec {d : Dict α} {w1 b1 : α}
    (h1 : dlookup (layerKey 0 sufN1w) d = some w1)
    (h2 : dlookup (layerKey 0 sufN1b) d = some b1) :
    ∃ e, reindexBody 0 d = some e ∧
      dlookup (layerKey 0 sufN2w) e = some w1 ∧
      dlookup (layerKey 0 sufN2b) e = some b1 ∧
      (∀ k, k ≠ layerKey 0 sufN1w → k ≠ layerKey 0 sufN1b →
        k ≠ layerKey 0 sufN2w → k ≠ layerKey 0 sufN2b → dlookup k e = dlookup k d) ∧
      (∀ m, m ∈ dkeys e → m ∈ dkeys d ∨ m = layerKey 0 sufN2w ∨ m = layerKey 0 sufN2b) ∧
      ((dkeys d).Nodup → (dkeys e).Nodup ∧
        dlookup (layerKey 0 sufN1w) e = none ∧ dlookup (layerKey 0 sufN1b) e = none) := by
  have ne_b_w : layerKey 0 sufN1b ≠ layerKey 0 sufN1w :=
    lk_ne_of_suf shape_n1b shape_n1w (by decide) 0 0
  have ne_2w_1w : layerKey 0 sufN2w ≠ layerKey 0 sufN1w :=
    lk_ne_of_suf shape_n2w shape_n1w (by decide) 0 0
  have ne_2w_1b : layerKey 0 sufN2w ≠ layerKey 0 sufN1b :=
    lk_ne_of_suf shape_n2w shape_n1b (by decide) 0 0
  have ne_2b_1w : layerKey 0 sufN2b ≠ layerKey 0 sufN1w :=
    lk_ne_of_suf shape_n2b shape_n1w (by decide) 0 0
  have ne_2b_1b : layerKey 0 sufN2b ≠ layerKey 0 sufN1b :=
    lk_ne_of_suf shape_n2b shape_n1b (by decide) 0 0
  have ne_2w_2b : layerKey 0 sufN2w ≠ layerKey 0 sufN2b :=
    lk_ne_of_suf shape_n2w shape_n2b (by decide) 0 0
  obtain ⟨d2, hp1, hf1, hk1, hn1⟩ := dpop_of_lookup h1
  have h2b : dlookup (layerKey 0 sufN1b) d2 = some b1 := by
    rw [hf1 _ ne_b_w]; exact h2
  obtain ⟨d3, hp2, hf2, hk2, hn2⟩ := dpop_of_lookup h2b
  refine ⟨dinsert (layerKey 0 sufN2b) b1 (dinsert (layerKey 0 sufN2w) w1 d3),
    ?_, ?_, ?_, ?_, ?_, ?_⟩
  · simp [reindexBody, hp1, hp2]
  · rw [dlookup_dinsert_ne ne_2w_2b, dlookup_dinsert_self]
  · rw [dlookup_dinsert_self]
  · intro k hk1w hk1b hk2w hk2b
    rw [dlookup_dinsert_ne hk2b, dlookup_dinsert_ne hk2w, hf2 _ hk1b, hf1 _ hk1w]
  · intro m hm
    rcases (mem_dkeys_dinsert _ _).mp hm with hm | hm
    · exact Or.inr (Or.inr hm)
    rcases (mem_dkeys_dinsert _ _).mp hm with hm | hm
    · exact Or.inr (Or.inl hm)
    · exact Or.inl (hk1 m (hk2 m hm))
  · intro hnd
    obtain ⟨hnd2, hnone1⟩ := hn1 hnd
    obtain ⟨hnd3, hnone2⟩ := hn2 hnd2
    refine ⟨dkeys_dinsert_nodup _ (dkeys_dinsert_nodup _ hnd3), ?_, ?_⟩
    · rw [dlookup_dinsert_ne (Ne.symm ne_2b_1w), dlookup_dinsert_ne (Ne.symm ne_2w_1w),
        hf2 _ (Ne.symm ne_b_w)]
      exact hnone1
    · rw [dlookup_dinsert_ne (Ne.symm ne_2b_1b), dlookup_dinsert_ne (Ne.symm ne_2w_1b)]
      exact hnone2

end H3

namespace H3

variable {α : Type}

theorem reindexBody_pos_spec {l : Nat} (hl : 0 < l) {d : Dict α} {w1 b1 w2 b2 : α}
    (h1 : dlookup (layerKey l sufN1w) d = some w1)
    (h2 : dlookup (layerKey l sufN1b) d = some b1)
    (h3 : dlookup (layerKey (l - 1) sufN2w) d = some w2)
    (h4 : dlookup (layerKey (l - 1) sufN2b) d = some b2) :
    ∃ e, reindexBody l d = some e ∧
      dlookup (layerKey l sufN2w) e = some w1 ∧
      dlookup (layerKey l sufN2b) e = some b1 ∧
      dlookup (layerKey l sufN1w) e = some w2 ∧
      dlookup (layerKey l sufN1b) e = some b2 ∧
      (∀ k, k ≠ layerKey l sufN1w → k ≠ layerKey l sufN1b →
        k ≠ layerKey l sufN2w → k ≠ layerKey l sufN2b →
        k ≠ layerKey (l - 1) sufN2w → k ≠ layerKey (l - 1) sufN2b →
        dlookup k e = dlookup k d) ∧
      (∀ m, m ∈ dkeys e → m ∈ dkeys d ∨ m = layerKey l sufN2w ∨ m = layerKey l sufN2b ∨
        m = layerKey l sufN1w ∨ m = layerKey l sufN1b) ∧
      ((dkeys d).Nodup → (dkeys e).Nodup) := by
  have hlne : l - 1 ≠ l := by omega
  have ne_1b_1w : layerKey l sufN1b ≠ layerKey l sufN1w :=
    lk_ne_of_suf shape_n1b shape_n1w (by decide) l l
  have ne_2w_1w : layerKey l sufN2w ≠ layerKey l sufN1w :=
    lk_ne_of_suf shape_n2w shape_n1w (by decide) l l
  have ne_2w_1b : layerKey l sufN2w ≠ layerKey l sufN1b :=
    lk_ne_of_suf shape_n2w shape_n1b (by decide) l l
  have ne_2b_1w : layerKey l sufN2b ≠ layerKey l sufN1w :=
    lk_ne_of_suf shape_n2b shape_n1w (by decide) l l
  have ne_2b_1b : layerKey l sufN2b ≠ layerKey l sufN1b :=
    lk_ne_of_suf shape_n2b shape_n1b (by decide) l l
  have ne_2w_2b : layerKey l sufN2w ≠ layerKey l sufN2b :=
    lk_ne_of_suf shape_n2w shape_n2b (by decide) l l
  have ne_p2w_1w : layerKey (l - 1) sufN2w ≠ layerKey l sufN1w :=
    lk_ne_of_suf shape_n2w shape_n1w (by decide) (l - 1) l
  have ne_p2w_1b : layerKey (l - 1) sufN2w ≠ layerKey l sufN1b :=
    lk_ne_of_suf shape_n2w shape_n1b (by decide) (l - 1) l
  have ne_p2w_2w : layerKey (l - 1) sufN2w ≠ layerKey l sufN2w :=
    lk_ne_of_idx shape_n2w shape_n2w hlne
  have ne_p2w_2b : layerKey (l - 1) sufN2w ≠ layerKey l sufN2b :=
    lk_ne_of_suf shape_n2w shape_n2b (by decide) (l - 1) l
  have ne_p2b_1w : layerKey (l - 1) sufN2b ≠ layerKey l sufN1w :=
    lk_ne_of_suf shape_n2b shape_n1w (by decide) (l - 1) l
  have ne_p2b_1b : layerKey (l - 1) sufN2b ≠ layerKey l sufN1b :=
    lk_ne_of_suf shape_n2b shape_n1b (by decide) (l - 1) l
  have ne_p2b_2w : layerKey (l - 1) sufN2b ≠ layerKey l sufN2w :=
    lk_ne_of_suf shape_n2b shape_n2w (by decide) (l - 1) l
  have ne_p2b_2b : layerKey (l - 1) sufN2b ≠ layerKey l sufN2b :=
    lk_ne_of_idx shape_n2b shape_n2b hlne
  have ne_p2b_p2w : layerKey (l - 1) sufN2b ≠ layerKey (l - 1) sufN2w :=
    lk_ne_of_suf shape_n2b shape_n2w (by decide) (l - 1) (l - 1)
  obtain ⟨d2, hp1, hf1, hk1, hn1⟩ := dpop_of_lookup h1
  have h2x : dlookup (layerKey l sufN1b) d2 = some b1 := by
    rw [hf1 _ ne_1b_1w]; exact h2
  obtain ⟨d3, hp2, hf2, hk2, hn2⟩ := dpop_of_lookup h2x
  have h3x : dlookup (layerKey (l - 1) sufN2w)
      (dinsert (layerKey l sufN2b) b1 (dinsert (layerKey l sufN2w) w1 d3)) = some w2 := by
    rw [dlookup_dinsert_ne ne_p2w_2b, dlookup_dinsert_ne ne_p2w_2w,
      hf2 _ ne_p2w_1b, hf1 _ ne_p2w_1w]
    exact h3
  obtain ⟨d6, hp3, hf3, hk3, hn3⟩ := dpop_of_lookup h3x
  have h4x : dlookup (layerKey (l - 1) sufN2b) d6 = some b2 := by
    rw [hf3 _ ne_p2b_p2w, dlookup_dinsert_ne ne_p2b_2b, dlookup_dinsert_ne ne_p2b_2w,
      hf2 _ ne_p2b_1b, hf1 _ ne_p2b_1w]
    exact h4
  obtain ⟨d7, hp4, hf4, hk4, hn4⟩ := dpop_of_lookup h4x
  refine ⟨dinsert (layerKey l sufN1b) b2 (dinsert (layerKey l sufN1w) w2 d7),
    ?_, ?_, ?_, ?_, ?_, ?_, ?_, ?_⟩
  · simp [reindexBody, hp1, hp2, hl, hp3, hp4]
  · rw [dlookup_dinsert_ne ne_2w_1b, dlookup_dinsert_ne ne_2w_1w,
      hf4 _ (Ne.symm ne_p2b_2w), hf3 _ (Ne.symm ne_p2w_2w),
      dlookup_dinsert_ne ne_2w_2b, dlookup_dinsert_self]
  · rw [dlookup_dinsert_ne ne_2b_1b, dlookup_dinsert_ne ne_2b_1w,
      hf4 _ (Ne.symm ne_p2b_2b), hf3 _ (Ne.symm ne_p2w_2b),
      dlookup_dinsert_self]
  · rw [dlookup_dinsert_ne (Ne.symm ne_1b_1w), dlookup_dinsert_self]
  · rw [dlookup_dinsert_self]
  · intro k hka1 hka2 hkc1 hkc2 hkb1 hkb2
    rw [dlookup_dinsert_ne hka2, dlookup_dinsert_ne hka1, hf4 _ hkb2, hf3 _ hkb1,
      dlookup_dinsert_ne hkc2, dlookup_dinsert_ne hkc1, hf2 _ hka2, hf1 _ hka1]
  · intro m hm
    rcases (mem_dkeys_dinsert _ _).mp hm with hm | hm
    · exact Or.inr (Or.inr (Or.inr (Or.inr hm)))
    rcases (mem_dkeys_dinsert _ _).mp hm with hm | hm
    · exact Or.inr (Or.inr (Or.inr (Or.inl hm)))
    have hm2 := hk3 m (hk4 m hm)
    rcases (mem_dkeys_dinsert _ _).mp hm2 with hm2 | hm2
    · exact Or.inr (Or.inr (Or.inl hm2))
    rcases (mem_dkeys_dinsert _ _).mp hm2 with hm2 | hm2
    · exact Or.inr (Or.inl hm2)
    · exact Or.inl (hk1 m (hk2 m hm2))
  · intro hnd
    have hnd2 := (hn1 hnd).1
    have hnd3 := (hn2 hnd2).1
    have hnd5 : (dkeys (dinsert (layerKey l sufN2b) b1
        (dinsert (layerKey l sufN2w) w1 d3))).Nodup :=
      dkeys_dinsert_nodup _ (dkeys_dinsert_nodup _ hnd3)
    have hnd6 := (hn3 hnd5).1
    have hnd7 := (hn4 hnd6).1
    exact dkeys_dinsert_nodup _ (dkeys_dinsert_nodup _ hnd7)

end H3

namespace H3

variable {α : Type}

theorem reindexLoop_spec (W1 B1 W2 B2 : Nat → α) :
    ∀ (m : Nat) (d : Dict α),
    (∀ l, l < m → dlookup (layerKey l sufN1w) d = some (W1 l) ∧
      dlookup (layerKey l sufN1b) d = some (B1 l)) →
    (∀ l, l + 1 < m → dlookup (layerKey l sufN2w) d = some (W2 l) ∧
      dlookup (layerKey l sufN2b) d = some (B2 l)) →
    ∃ e, reindexLoop d m = some e ∧
      (∀ l, l < m → dlookup (layerKey l sufN2w) e = some (W1 l) ∧
        dlookup (layerKey l sufN2b) e = some (B1 l)) ∧
      (∀ l, 0 < l → l < m → dlookup (layerKey l sufN1w) e = some (W2 (l - 1)) ∧
        dlookup (layerKey l sufN1b) e = some (B2 (l - 1))) ∧
      (∀ k, (∀ l, l < m → k ≠ layerKey l sufN1w ∧ k ≠ layerKey l sufN1b ∧
        k ≠ layerKey l sufN2w ∧ k ≠ layerKey l sufN2b) → dlookup k e = dlookup k d) ∧
      (∀ q, q ∈ dkeys e → q ∈ dkeys d ∨ ∃ l, l < m ∧
        (q = layerKey l sufN1w ∨ q = layerKey l sufN1b ∨
         q = layerKey l sufN2w ∨ q = layerKey l sufN2b)) ∧
      ((dkeys d).Nodup → (dkeys e).Nodup ∧
        (0 < m → dlookup (layerKey 0 sufN1w) e = none ∧
          dlookup (layerKey 0 sufN1b) e = none)) := by
  intro m
  induction m with
  | zero =>
    intro d _ _
    refine ⟨d, rfl, ?_, ?_, ?_, ?_, ?_⟩
    · intro l hl; omega
    · intro l hl hl2; omega
    · intro k _; rfl
    · intro q hq; exact Or.inl hq
    · intro hnd; exact ⟨hnd, fun h => absurd h (by omega)⟩
  | succ m ih =>
    intro d H1 H2
    rcases Nat.eq_zero_or_pos m with hm | hm
    · subst hm
      obtain ⟨e0, heq, hc1, hc2, hfr, hkeys, hnd⟩ :=
        reindexBody_zero_spec (H1 0 (by omega)).1 (H1 0 (by omega)).2
      refine ⟨e0, ?_, ?_, ?_, ?_, ?_, ?_⟩
      · simp [reindexLoop, heq]
      · intro l hl
        have : l = 0 := by omega
        subst this
        exact ⟨hc1, hc2⟩
      · intro l hl hl2; omega
      · intro k hk
        obtain ⟨hk1, hk2, hk3, hk4⟩ := hk 0 (by omega)
        exact hfr k hk1 hk2 hk3 hk4
      · intro q hq
        rcases hkeys q hq with h | h | h
        · exact Or.inl h
        · exact Or.inr ⟨0, by omega, Or.inr (Or.inr (Or.inl h))⟩
        · exact Or.inr ⟨0, by omega, Or.inr (Or.inr (Or.inr h))⟩
      · intro hnd2
        obtain ⟨ha, hb, hc⟩ := hnd hnd2
        exact ⟨ha, fun _ => ⟨hb, hc⟩⟩
    · obtain ⟨e1, heq, hb2w, hb2b, hb1w, hb1b, hfr, hkeys, hnd⟩ :=
        reindexBody_pos_spec hm (H1 m (by omega)).1 (H1 m (by omega)).2
          (H2 (m - 1) (by omega)).1 (H2 (m - 1) (by omega)).2
      have H1x : ∀ l, l < m → dlookup (layerKey l sufN1w) e1 = some (W1 l) ∧
          dlookup (layerKey l sufN1b) e1 = some (B1 l) := by
        intro l hl
        constructor
        · rw [hfr _ (lk_ne_of_idx shape_n1w shape_n1w (by omega))
            (lk_ne_of_suf shape_n1w shape_n1b (by decide) l m)
            (lk_ne_of_suf shape_n1w shape_n2w (by decide) l m)
            (lk_ne_of_suf shape_n1w shape_n2b (by decide) l m)
            (lk_ne_of_suf shape_n1w shape_n2w (by decide) l (m - 1))
            (lk_ne_of_suf shape_n1w shape_n2b (by decide) l (m - 1))]
          exact (H1 l (by omega)).1
        · rw [hfr _ (lk_ne_of_suf shape_n1b shape_n1w (by decide) l m)
            (lk_ne_of_idx shape_n1b shape_n1b (by omega))
            (lk_ne_of_suf shape_n1b shape_n2w (by decide) l m)
            (lk_ne_of_suf shape_n1b shape_n2b (by decide) l m)
            (lk_ne_of_suf shape_n1b shape_n2w (by decide) l (m - 1))
            (lk_ne_of_suf shape_n1b shape_n2b (by decide) l (m - 1))]
          exact (H1 l (by omega)).2
      have H2x : ∀ l, l + 1 < m → dlookup (layerKey l sufN2w) e1 = some (W2 l) ∧
          dlookup (layerKey l sufN2b) e1 = some (B2 l) := by
        intro l hl
        constructor
        · rw [hfr _ (lk_ne_of_suf shape_n2w shape_n1w (by decide) l m)
            (lk_ne_of_suf shape_n2w shape_n1b (by decide) l m)
            (lk_ne_of_idx shape_n2w shape_n2w (by omega))
            (lk_ne_of_suf shape_n2w shape_n2b (by decide) l m)
            (lk_ne_of_idx shape_n2w shape_n2w (by omega))
            (lk_ne_of_suf shape_n2w shape_n2b (by decide) l (m - 1))]
          exact (H2 l (by omega)).1
        · rw [hfr _ (lk_ne_of_suf shape_n2b shape_n1w (by decide) l m)
            (lk_ne_of_suf shape_n2b shape_n1b (by decide) l m)
            (lk_ne_of_suf shape_n2b shape_n2w (by decide) l m)
            (lk_ne_of_idx shape_n2b shape_n2b (by omega))
            (lk_ne_of_suf shape_n2b shape_n2w (by decide) l (m - 1))
            (lk_ne_of_idx shape_n2b shape_n2b (by omega))]
          exact (H2 l (by omega)).2
      obtain ⟨e, heq2, Ax, Bx, Cx, Kx, Nx⟩ := ih e1 H1x H2x
      refine ⟨e, ?_, ?_, ?_, ?_, ?_, ?_⟩
      · simp [reindexLoop, heq, heq2]
      · intro l hl
        rcases Nat.lt_or_ge l m with hlm | hlm
        · exact Ax l hlm
        · have hlm2 : l = m := by omega
          subst hlm2
          constructor
          · rw [Cx _ (fun l2 hl2 => ⟨lk_ne_of_suf shape_n2w shape_n1w (by decide) l l2,
              lk_ne_of_suf shape_n2w shape_n1b (by decide) l l2,
              lk_ne_of_idx shape_n2w shape_n2w (by omega),
              lk_ne_of_suf shape_n2w shape_n2b (by decide) l l2⟩)]
            exact hb2w
          · rw [Cx _ (fun l2 hl2 => ⟨lk_ne_of_suf shape_n2b shape_n1w (by decide) l l2,
              lk_ne_of_suf shape_n2b shape_n1b (by decide) l l2,
              lk_ne_of_suf shape_n2b shape_n2w (by decide) l l2,
              lk_ne_of_idx shape_n2b shape_n2b (by omega)⟩)]
            exact hb2b
      · intro l h0 hl
        rcases Nat.lt_or_ge l m with hlm | hlm
        · exact Bx l h0 hlm
        · have hlm2 : l = m := by omega
          subst hlm2
          constructor
          · rw [Cx _ (fun l2 hl2 => ⟨lk_ne_of_idx shape_n1w shape_n1w (by omega),
              lk_ne_of_suf shape_n1w shape_n1b (by decide) l l2,
              lk_ne_of_suf shape_n1w shape_n2w (by decide) l l2,
              lk_ne_of_suf shape_n1w shape_n2b (by decide) l l2⟩)]
            exact hb1w
          · rw [Cx _ (fun l2 hl2 => ⟨lk_ne_of_suf shape_n1b shape_n1w (by decide) l l2,
              lk_ne_of_idx shape_n1b shape_n1b (by omega),
              lk_ne_of_suf shape_n1b shape_n2w (by decide) l l2,
              lk_ne_of_suf shape_n1b shape_n2b (by decide) l l2⟩)]
            exact hb1b
      · intro k hk
        have h5 := Cx k (fun l2 hl2 => hk l2 (by omega))
        have h6 := hfr k (hk m (by omega)).1 (hk m (by omega)).2.1
          (hk m (by omega)).2.2.1 (hk m (by omega)).2.2.2
          (hk (m - 1) (by omega)).2.2.1 (hk (m - 1) (by omega)).2.2.2
        rw [h5, h6]
      · intro q hq
        rcases Kx q hq with h | ⟨l, hl, h⟩
        · rcases hkeys q h with h2 | h2 | h2 | h2 | h2
          · exact Or.inl h2
          · exact Or.inr ⟨m, by omega, Or.inr (Or.inr (Or.inl h2))⟩
          · exact Or.inr ⟨m, by omega, Or.inr (Or.inr (Or.inr h2))⟩
          · exact Or.inr ⟨m, by omega, Or.inl h2⟩
          · exact Or.inr ⟨m, by omega, Or.inr (Or.inl h2)⟩
        · exact Or.inr ⟨l, by omega, h⟩
      · intro hnd2
        obtain ⟨ha, hb⟩ := Nx (hnd hnd2)
        exact ⟨ha, fun _ => hb hm⟩

end H3

namespace H3

variable {α : Type}

theorem reindex_spec (L : Nat) (hL : 0 < L) (d : Dict α) (W1 B1 W2 B2 : Nat → α)
    (sw sb : α)
    (hs1 : dlookup ln0w d = some sw) (hs2 : dlookup ln0b d = some sb)
    (hn1 : ∀ l, l < L → dlookup (layerKey l sufN1w) d = some (W1 l) ∧
      dlookup (layerKey l sufN1b) d = some (B1 l))
    (hn2 : ∀ l, l < L → dlookup (layerKey l sufN2w) d = some (W2 l) ∧
      dlookup (layerKey l sufN2b) d = some (B2 l)) :
    ∃ out, reindex L d = some out ∧
      dlookup lnfw out = some (W2 (L - 1)) ∧
      dlookup lnfb out = some (B2 (L - 1)) ∧
      (∀ l, l < L → dlookup (layerKey l sufN2w) out = some (W1 l) ∧
        dlookup (layerKey l sufN2b) out = some (B1 l)) ∧
      (∀ l, 0 < l → l < L → dlookup (layerKey l sufN1w) out = some (W2 (l - 1)) ∧
        dlookup (layerKey l sufN1b) out = some (B2 (l - 1))) ∧
      dlookup blk0w out = some sw ∧
      dlookup blk0b out = some sb ∧
      (∀ k, k ≠ ln0w → k ≠ ln0b → k ≠ lnfw → k ≠ lnfb → k ≠ blk0w → k ≠ blk0b →
        (∀ l, l < L → k ≠ layerKey l sufN1w ∧ k ≠ layerKey l sufN1b ∧
          k ≠ layerKey l sufN2w ∧ k ≠ layerKey l sufN2b) →
        dlookup k out = dlookup k d) ∧
      (∀ q, q ∈ dkeys out → q ∈ dkeys d ∨ q = lnfw ∨ q = lnfb ∨ q = blk0w ∨ q = blk0b ∨
        ∃ l, l < L ∧ (q = layerKey l sufN1w ∨ q = layerKey l sufN1b ∨
          q = layerKey l sufN2w ∨ q = layerKey l sufN2b)) ∧
      ((dkeys d).Nodup → (dkeys out).Nodup ∧
        dlookup (layerKey 0 sufN1w) out = none ∧
        dlookup (layerKey 0 sufN1b) out = none ∧
        dlookup ln0w out = none ∧ dlookup ln0b out = none) := by
  have hguard : hasKey ln0w d = true := by
    unfold hasKey
    rw [hs1]
    rfl
  obtain ⟨d2, hp1, hf1, hk1, hq1⟩ := dpop_of_lookup (hn2 (L - 1) (by omega)).1
  have h2x : dlookup (layerKey (L - 1) sufN2b) d2 = some (B2 (L - 1)) := by
    rw [hf1 _ (lk_ne_of_suf shape_n2b shape_n2w (by decide) (L - 1) (L - 1))]
    exact (hn2 (L - 1) (by omega)).2
  obtain ⟨d3, hp2, hf2, hk2, hq2⟩ := dpop_of_lookup h2x
  set d5 : Dict α := dinsert lnfb (B2 (L - 1)) (dinsert lnfw (W2 (L - 1)) d3) with hd5
  have H1x : ∀ l, l < L → dlookup (layerKey l sufN1w) d5 = some (W1 l) ∧
      dlookup (layerKey l sufN1b) d5 = some (B1 l) := by
    intro l hl
    constructor
    · rw [hd5, dlookup_dinsert_ne (lk_ne_lnfb l sufN1w), dlookup_dinsert_ne (lk_ne_lnfw l sufN1w),
        hf2 _ (lk_ne_of_suf shape_n1w shape_n2b (by decide) l (L - 1)),
        hf1 _ (lk_ne_of_suf shape_n1w shape_n2w (by decide) l (L - 1))]
      exact (hn1 l hl).1
    · rw [hd5, dlookup_dinsert_ne (lk_ne_lnfb l sufN1b), dlookup_dinsert_ne (lk_ne_lnfw l sufN1b),
        hf2 _ (lk_ne_of_suf shape_n1b shape_n2b (by decide) l (L - 1)),
        hf1 _ (lk_ne_of_suf shape_n1b shape_n2w (by decide) l (L - 1))]
      exact (hn1 l hl).2
  have H2x : ∀ l, l + 1 < L → dlookup (layerKey l sufN2w) d5 = some (W2 l) ∧
      dlookup (layerKey l sufN2b) d5 = some (B2 l) := by
    intro l hl
    constructor
    · rw [hd5, dlookup_dinsert_ne (lk_ne_lnfb l sufN2w), dlookup_dinsert_ne (lk_ne_lnfw l sufN2w),
        hf2 _ (lk_ne_of_suf shape_n2w shape_n2b (by decide) l (L - 1)),
        hf1 _ (lk_ne_of_idx shape_n2w shape_n2w (by omega))]
      exact (hn2 l (by omega)).1
    · rw [hd5, dlookup_dinsert_ne (lk_ne_lnfb l sufN2b), dlookup_dinsert_ne (lk_ne_lnfw l sufN2b),
        hf2 _ (lk_ne_of_idx shape_n2b shape_n2b (by omega)),
        hf1 _ (lk_ne_of_suf shape_n2b shape_n2w (by decide) l (L - 1))]
      exact (hn2 l (by omega)).2
  obtain ⟨e, hloop, Ax, Bx, Cx, Kx, Nx⟩ := reindexLoop_spec W1 B1 W2 B2 L d5 H1x H2x
  have hln0w_e : dlookup ln0w e = some sw := by
    rw [Cx ln0w (fun l hl => ⟨Ne.symm (lk_ne_ln0w l sufN1w), Ne.symm (lk_ne_ln0w l sufN1b),
      Ne.symm (lk_ne_ln0w l sufN2w), Ne.symm (lk_ne_ln0w l sufN2b)⟩)]
    rw [hd5, dlookup_dinsert_ne (by decide), dlookup_dinsert_ne (by decide),
      hf2 _ (Ne.symm (lk_ne_ln0w (L - 1) sufN2b)), hf1 _ (Ne.symm (lk_ne_ln0w (L - 1) sufN2w))]
    exact hs1
  obtain ⟨f1, hp3, hf3, hk3, hq3⟩ := dpop_of_lookup hln0w_e
  have hln0b_f1 : dlookup ln0b f1 = some sb := by
    rw [hf3 _ (by decide)]
    rw [Cx ln0b (fun l hl => ⟨Ne.symm (lk_ne_ln0b l sufN1w), Ne.symm (lk_ne_ln0b l sufN1b),
      Ne.symm (lk_ne_ln0b l sufN2w), Ne.symm (lk_ne_ln0b l sufN2b)⟩)]
    rw [hd5, dlookup_dinsert_ne (by decide), dlookup_dinsert_ne (by decide),
      hf2 _ (Ne.symm (lk_ne_ln0b (L - 1) sufN2b)), hf1 _ (Ne.symm (lk_ne_ln0b (L - 1) sufN2w))]
    exact hs2
  obtain ⟨f2, hp4, hf4, hk4, hq4⟩ := dpop_of_lookup hln0b_f1
  refine ⟨dinsert blk0b sb (dinsert blk0w sw f2), ?_, ?_, ?_, ?_, ?_, ?_, ?_, ?_, ?_, ?_⟩
  · simp [reindex, hguard, hp1, hp2, ← hd5, hloop, hp3, hp4]
  · rw [dlookup_dinsert_ne (by decide), dlookup_dinsert_ne (by decide),
      hf4 _ (by decide), hf3 _ (by decide)]
    rw [Cx lnfw (fun l hl => ⟨Ne.symm (lk_ne_lnfw l sufN1w), Ne.symm (lk_ne_lnfw l sufN1b),
      Ne.symm (lk_ne_lnfw l sufN2w), Ne.symm (lk_ne_lnfw l sufN2b)⟩)]
    rw [hd5, dlookup_dinsert_ne (by decide), dlookup_dinsert_self]
  · rw [dlookup_dinsert_ne (by decide), dlookup_dinsert_ne (by decide),
      hf4 _ (by decide), hf3 _ (by decide)]
    rw [Cx lnfb (fun l hl => ⟨Ne.symm (lk_ne_lnfb l sufN1w), Ne.symm (lk_ne_lnfb l sufN1b),
      Ne.symm (lk_ne_lnfb l sufN2w), Ne.symm (lk_ne_lnfb l sufN2b)⟩)]
    rw [hd5, dlookup_dinsert_self]
  · intro l hl
    constructor
    · rw [dlookup_dinsert_ne (lk_ne_blk0b l sufN2w), dlookup_dinsert_ne (lk_ne_blk0w l sufN2w),
        hf4 _ (lk_ne_ln0b l sufN2w), hf3 _ (lk_ne_ln0w l sufN2w)]
      exact (Ax l hl).1
    · rw [dlookup_dinsert_ne (lk_ne_blk0b l sufN2b), dlookup_dinsert_ne (lk_ne_blk0w l sufN2b),
        hf4 _ (lk_ne_ln0b l sufN2b), hf3 _ (lk_ne_ln0w l sufN2b)]
      exact (Ax l hl).2
  · intro l h0 hl
    constructor
    · rw [dlookup_dinsert_ne (lk_ne_blk0b l sufN1w), dlookup_dinsert_ne (lk_ne_blk0w l sufN1w),
        hf4 _ (lk_ne_ln0b l sufN1w), hf3 _ (lk_ne_ln0w l sufN1w)]
      exact (Bx l h0 hl).1
    · rw [dlookup_dinsert_ne (lk_ne_blk0b l sufN1b), dlookup_dinsert_ne (lk_ne_blk0w l sufN1b),
        hf4 _ (lk_ne_ln0b l sufN1b), hf3 _ (lk_ne_ln0w l sufN1b)]
      exact (Bx l h0 hl).2
  · rw [dlookup_dinsert_ne (by decide), dlookup_dinsert_self]
  · rw [dlookup_dinsert_self]
  · intro k hk1x hk2x hk3x hk4x hk5x hk6x hlay
    rw [dlookup_dinsert_ne hk6x, dlookup_dinsert_ne hk5x, hf4 _ hk2x, hf3 _ hk1x]
    rw [Cx k (fun l hl => hlay l hl)]
    rw [hd5, dlookup_dinsert_ne hk4x, dlookup_dinsert_ne hk3x,
      hf2 _ (hlay (L - 1) (by omega)).2.2.2, hf1 _ (hlay (L - 1) (by omega)).2.2.1]
  · intro q hq
    rcases (mem_dkeys_dinsert _ _).mp hq with h | h
    · exact Or.inr (Or.inr (Or.inr (Or.inr (Or.inl h))))
    rcases (mem_dkeys_dinsert _ _).mp h with h | h
    · exact Or.inr (Or.inr (Or.inr (Or.inl h)))
    have h2 := hk3 q (hk4 q h)
    rcases Kx q h2 with h3 | ⟨l, hl, h3⟩
    · rw [hd5] at h3
      rcases (mem_dkeys_dinsert _ _).mp h3 with h4 | h4
      · exact Or.inr (Or.inr (Or.inl h4))
      rcases (mem_dkeys_dinsert _ _).mp h4 with h5 | h5
      · exact Or.inr (Or.inl h5)
      · exact Or.inl (hk1 q (hk2 q h5))
    · exact Or.inr (Or.inr (Or.inr (Or.inr (Or.inr ⟨l, hl, h3⟩))))
  · intro hnd
    have hnd2 := (hq1 hnd).1
    have hnd3 := (hq2 hnd2).1
    have hnd5 : (dkeys d5).Nodup := by
      rw [hd5]
      exact dkeys_dinsert_nodup _ (dkeys_dinsert_nodup _ hnd3)
    obtain ⟨hndE, hnone01⟩ := Nx hnd5
    obtain ⟨h01w, h01b⟩ := hnone01 hL
    have hndF1 := (hq3 hndE).1
    have hnoneLn0w := (hq3 hndE).2
    have hndF2 := (hq4 hndF1).1
    have hnoneLn0b := (hq4 hndF1).2
    refine ⟨dkeys_dinsert_nodup _ (dkeys_dinsert_nodup _ hndF2), ?_, ?_, ?_, ?_⟩
    · rw [dlookup_dinsert_ne (lk_ne_blk0b 0 sufN1w),
        dlookup_dinsert_ne (lk_ne_blk0w 0 sufN1w),
        hf4 _ (lk_ne_ln0b 0 sufN1w), hf3 _ (lk_ne_ln0w 0 sufN1w)]
      exact h01w
    · rw [dlookup_dinsert_ne (lk_ne_blk0b 0 sufN1b),
        dlookup_dinsert_ne (lk_ne_blk0w 0 sufN1b),
        hf4 _ (lk_ne_ln0b 0 sufN1b), hf3 _ (lk_ne_ln0w 0 sufN1b)]
      exact h01b
    · rw [dlookup_dinsert_ne (by decide), dlookup_dinsert_ne (by decide), hf4 _ (by decide)]
      exact hnoneLn0w
    · rw [dlookup_dinsert_ne (by decide), dlookup_dinsert_ne (by decide)]
      exact hnoneLn0b

end H3

namespace H3

/-! ### Lightning-unwrap lookup lemma -/

variable {α : Type}

theorem isPre_eq_append {p s : List Char} (h : isPre p s = true) :
    p ++ s.drop p.length = s := by
  induction p generalizing s with
  | nil => simp
  | cons x xs ih =>
    cases s with
    | nil => simp [isPre] at h
    | cons y ys =>
      simp only [isPre, Bool.and_eq_true, decide_eq_true_eq] at h
      simp only [List.cons_append, List.length_cons, List.drop_succ_cons, List.cons.injEq]
      exact ⟨h.1, ih h.2⟩

theorem dlookup_stripped (inner : Dict (PyVal α)) (k : Key) :
    dlookup k (inner.filterMap (fun kv =>
      if isPre modelPre kv.1 then some (kv.1.drop modelPre.length, kv.2) else none)) =
    dlookup (modelPre ++ k) inner := by
  induction inner with
  | nil => rfl
  | cons kv rest ih =>
    obtain ⟨k2, v2⟩ := kv
    by_cases hpre : isPre modelPre k2 = true
    · have hk2 : modelPre ++ k2.drop modelPre.length = k2 := isPre_eq_append hpre
      have hstep : List.filterMap (fun kv : Key × PyVal α =>
          if isPre modelPre kv.1 then some (kv.1.drop modelPre.length, kv.2) else none)
          ((k2, v2) :: rest) =
          (k2.drop modelPre.length, v2) :: List.filterMap (fun kv : Key × PyVal α =>
          if isPre modelPre kv.1 then some (kv.1.drop modelPre.length, kv.2) else none) rest := by
        simp [List.filterMap_cons, hpre]
      rw [hstep]
      by_cases hk : k = k2.drop modelPre.length
      · subst hk
        simp [dlookup, hk2]
      · have hne : modelPre ++ k ≠ k2 := by
          intro h
          apply hk
          rw [← hk2] at h
          exact app_cancel_l _ _ _ h
        simp [dlookup, hk, hne, ih]
    · have hstep : List.filterMap (fun kv : Key × PyVal α =>
          if isPre modelPre kv.1 then some (kv.1.drop modelPre.length, kv.2) else none)
          ((k2, v2) :: rest) =
          List.filterMap (fun kv : Key × PyVal α =>
          if isPre modelPre kv.1 then some (kv.1.drop modelPre.length, kv.2) else none) rest := by
        simp [List.filterMap_cons, hpre]
      rw [hstep]
      have hne : modelPre ++ k ≠ k2 := by
        intro h
        apply hpre
        rw [← h]
        exact isPre_append_self _ _
      rw [ih]
      simp [dlookup, hne]

end H3

namespace H3

/-! ### Claim theorems (part 1) -/

/-- C1: for every well-formed legacy mapping (sentinel present, all
per-layer norm1/norm2 weight+bias present), the reindexing stage succeeds
and produces a mapping in which `ln_f` holds the old layer `L-1` `norm2`
tensors, layer `l`'s `norm2` holds old layer `l`'s `norm1` tensors, layer
`l`'s `norm1` (`l > 0`) holds old layer `l-1`'s `norm2` tensors, and layer
0's `norm1` (destination-style key) holds the old sentinel tensors; every
tensor value is unchanged, only its key changes. -/
theorem C1_reindex_rotation {α : Type} (L : Nat) (hL : 0 < L) (sd : Dict α)
    (W1 B1 W2 B2 : Nat → α) (sw sb : α)
    (hs1 : dlookup ln0w sd = some sw) (hs2 : dlookup ln0b sd = some sb)
    (hn1 : ∀ l, l < L → dlookup (layerKey l sufN1w) sd = some (W1 l) ∧
      dlookup (layerKey l sufN1b) sd = some (B1 l))
    (hn2 : ∀ l, l < L → dlookup (layerKey l sufN2w) sd = some (W2 l) ∧
      dlookup (layerKey l sufN2b) sd = some (B2 l)) :
    ∃ out, reindex L sd = some out ∧
      dlookup lnfw out = some (W2 (L - 1)) ∧
      dlookup lnfb out = some (B2 (L - 1)) ∧
      (∀ l, l < L → dlookup (layerKey l sufN2w) out = some (W1 l) ∧
        dlookup (layerKey l sufN2b) out = some (B1 l)) ∧
      (∀ l, 0 < l → l < L → dlookup (layerKey l sufN1w) out = some (W2 (l - 1)) ∧
        dlookup (layerKey l sufN1b) out = some (B2 (l - 1))) ∧
      dlookup blk0w out = some sw ∧ dlookup blk0b out = some sb := by
  obtain ⟨out, heq, h1, h2, h3, h4, h5, h6, _, _, _⟩ :=
    reindex_spec L hL sd W1 B1 W2 B2 sw sb hs1 hs2 hn1 hn2
  exact ⟨out, heq, h1, h2, h3, h4, h5, h6⟩

/-- Witness for C1 at `L = 2` on a concrete 2-layer legacy mapping. -/
theorem C1_reindex_rotation_witness :
    ∃ out, reindex 2 (legacyDict 2 (fun l => 10 + l) (fun l => 20 + l)
        (fun l => 30 + l) (fun l => 40 + l) 7 8) = some out ∧
      dlookup lnfw out = some (30 + (2 - 1)) ∧
      dlookup lnfb out = some (40 + (2 - 1)) ∧
      (∀ l, l < 2 → dlookup (layerKey l sufN2w) out = some (10 + l) ∧
        dlookup (layerKey l sufN2b) out = some (20 + l)) ∧
      (∀ l, 0 < l → l < 2 → dlookup (layerKey l sufN1w) out = some (30 + (l - 1)) ∧
        dlookup (layerKey l sufN1b) out = some (40 + (l - 1))) ∧
      dlookup blk0w out = some 7 ∧ dlookup blk0b out = some 8 :=
  C1_reindex_rotation 2 (by decide) _ _ _ _ _ 7 8 (by decide) (by decide)
    (by decide) (by decide)

/-- C3: if the sentinel key is absent, the reindexing stage is a no-op:
the mapping handed to the renaming stage is the input mapping itself. -/
theorem C3_reindex_skip {α : Type} (L : Nat) (sd : Dict α)
    (h : hasKey ln0w sd = false) : reindex L sd = some sd := by
  simp [reindex, h]

/-- Witness for C3 on a concrete sentinel-free mapping. -/
theorem C3_reindex_skip_witness :
    reindex 12 [(("lm_head.weight").data, (0 : Nat))] =
      some [(("lm_head.weight").data, (0 : Nat))] :=
  C3_reindex_skip 12 _ (by decide)

/-- C5: a key matching none of the three substring patterns is returned
unchanged by `rename_key`; a key matching exactly one pattern is rewritten
exactly once, by that one rule. -/
theorem C5_rename_key_patterns (k : Key) :
    (containsSub pEmb k = false → containsSub pLayers k = false →
      containsSub pLnf k = false → rename_key k = k) ∧
    (containsSub pEmb k = true → containsSub pLayers k = false →
      containsSub pLnf k = false → rename_key k = replaceAll pBackbone rH3 k) ∧
    (containsSub pEmb k = false → containsSub pLayers k = true →
      containsSub pLnf k = false → rename_key k = replaceAll pLayers rBlocks k) ∧
    (containsSub pEmb k = false → containsSub pLayers k = false →
      containsSub pLnf k = true → rename_key k = replaceAll pLnf rFinal k) := by
  refine ⟨?_, ?_, ?_, ?_⟩
  · intro h1 h2 h3; exact rename_key_id h1 h2 h3
  · intro h1 _ _; exact rename_key_case1 h1
  · intro h1 h2 h3; exact rename_key_case2 h1 h2 h3
  · intro h1 h2 h3; exact rename_key_case3 h1 h2 h3

/-- Witness for C5 on a layer key. -/
theorem C5_rename_key_patterns_witness :
    rename_key ("backbone.layers.7.mixer.out_proj.weight").data =
      replaceAll pLayers rBlocks ("backbone.layers.7.mixer.out_proj.weight").data :=
  (C5_rename_key_patterns _).2.2.1 (by decide) (by decide) (by decide)

/-- C6: the config resolver returns exactly the documented tuple for each
of the four model sizes, and fails (no config) on any other identifier. -/
theorem C6_get_h3_config_spec :
    get_h3_config nm125 = some (768, 12, 12, [6]) ∧
    get_h3_config nm355 = some (1024, 24, 16, [8, 16]) ∧
    get_h3_config nm13b = some (2048, 24, 16, [8, 16]) ∧
    get_h3_config nm27b = some (2560, 32, 20, [8, 16, 24]) ∧
    (∀ s : Key, s ≠ nm125 → s ≠ nm355 → s ≠ nm13b → s ≠ nm27b →
      get_h3_config s = none) := by
  refine ⟨by decide, by decide, by decide, by decide, ?_⟩
  intro s h1 h2 h3 h4
  simp [get_h3_config, h1, h2, h3, h4]

/-- Witness for C6 on an unrecognized identifier. -/
theorem C6_get_h3_config_spec_witness :
    get_h3_config ("H3-6.7b").data = none :=
  C6_get_h3_config_spec.2.2.2.2 _ (by decide) (by decide) (by decide) (by decide)

/-- C7: the logits comparison is performed (with the hardcoded reference
slice and the `atol=1e-2` allclose call) precisely for `H3-125m` and
`H3-355m`; for every other model name the verifier performs no comparison
and raises no failure at this step. -/
theorem C7_verifier_iff (mn : Key) (logits : ℚ × ℚ × ℚ) :
    ((verifyStep mn logits).isSome = true ↔ (mn = nm125 ∨ mn = nm355)) ∧
    verifyStep nm125 logits =
      some (allclose3 logits (5.9570, 7.0703, 4.4727) (1 / 100) (1 / 100000)) ∧
    verifyStep nm355 logits =
      some (allclose3 logits (4.5926, 6.2018, 4.6021) (1 / 100) (1 / 100000)) ∧
    (mn ≠ nm125 → mn ≠ nm355 → verifyStep mn logits = none) := by
  have hne : nm355 ≠ nm125 := by decide
  refine ⟨?_, ?_, ?_, ?_⟩
  · by_cases h : mn = nm125 ∨ mn = nm355
    · rcases h with h | h
      · subst h
        simp [verifyStep, expectedSlice]
      · subst h
        simp [verifyStep, expectedSlice, hne]
    · push_neg at h
      simp [verifyStep, h.1, h.2]
  · simp [verifyStep, expectedSlice]
  · simp [verifyStep, expectedSlice, hne]
  · intro h1 h2
    simp [verifyStep, h1, h2]

/-- Witness for C7: no comparison for `H3-1.3b`. -/
theorem C7_verifier_iff_witness :
    verifyStep nm13b (0, 0, 0) = none :=
  (C7_verifier_iff nm13b (0, 0, 0)).2.2.2 (by decide) (by decide)

/-- C8: when the version-marker key is present and the nested `state_dict`
field is a mapping, the loader replaces the checkpoint by exactly the
`model.`-prefixed entries of that mapping, with the prefix stripped and
the values unchanged (a lookup of `k` in the result is a lookup of
`"model." ++ k` in the nested mapping); non-prefixed entries are dropped. -/
theorem C8_unwrap_lightning {α : Type} (ckpt : Dict (PyVal α)) (inner : Dict (PyVal α))
    (hmark : hasKey plVersionKey ckpt = true)
    (hsd : dlookup stateDictKey ckpt = some (PyVal.sub inner)) :
    ∃ res, unwrapLightning ckpt = some res ∧
      ∀ k : Key, dlookup k res = dlookup (modelPre ++ k) inner := by
  refine ⟨inner.filterMap (fun kv =>
    if isPre modelPre kv.1 then some (kv.1.drop modelPre.length, kv.2) else none), ?_, ?_⟩
  · simp [unwrapLightning, hmark, hsd]
  · intro k
    exact dlookup_stripped inner k

/-- Witness for C8 on a concrete wrapped checkpoint. -/
theorem C8_unwrap_lightning_witness :
    ∃ res, unwrapLightning
        [(plVersionKey, PyVal.meta),
         (stateDictKey, PyVal.sub
           [(("model.backbone.ln_0.weight").data, PyVal.tensor (5 : Nat)),
            (("optimizer.state").data, PyVal.tensor (6 : Nat))])] = some res ∧
      ∀ k : Key, dlookup k res = dlookup (modelPre ++ k)
        [(("model.backbone.ln_0.weight").data, PyVal.tensor (5 : Nat)),
         (("optimizer.state").data, PyVal.tensor (6 : Nat))] :=
  C8_unwrap_lightning _ _ (by rfl) (by rfl)

/-- C10: `rename_key` is idempotent — a second application of the renaming
pass leaves every key unchanged, because no rule's replacement text can
create or leave behind an occurrence of any trigger substring. -/
theorem C10_rename_key_idempotent (k : Key) :
    rename_key (rename_key k) = rename_key k :=
  rename_key_idem_aux k

end H3

namespace H3

/-! ### convert_state_dict machinery -/

variable {α : Type}

theorem dpop_append (k : Key) (acc : Dict α) :
    ∀ (d d2 : Dict α) (v : α), dpop k d = some (v, d2) →
      dpop k (d ++ acc) = some (v, d2 ++ acc) := by
  intro d
  induction d with
  | nil => intro d2 v h; simp [dpop] at h
  | cons kv rest ih =>
    intro d2 v h
    obtain ⟨k2, v2⟩ := kv
    by_cases hk : k = k2
    · subst hk
      have h2 : v2 = v ∧ rest = d2 := by simpa [dpop] using h
      obtain ⟨h3, h4⟩ := h2
      subst h3
      subst h4
      simp [dpop]
    · simp only [dpop, if_neg hk] at h
      cases hp : dpop k rest with
      | none =>
        rw [hp] at h
        simp at h
      | some p =>
        obtain ⟨pv, pd⟩ := p
        rw [hp] at h
        simp at h
        obtain ⟨h1, h2⟩ := h
        have hih := ih pd pv hp
        rw [h1] at hih
        have hgoal : dpop k (((k2, v2) :: rest) ++ acc) =
            (dpop k (rest ++ acc)).map (fun p => (p.1, (k2, v2) :: p.2)) := by
          simp [dpop, hk]
        rw [hgoal, hih]
        simp [← h2]

theorem dinsert_append_of_not_mem {k : Key} {d : Dict α} (h : k ∉ dkeys d) (v : α) :
    dinsert k v d = d ++ [(k, v)] := by
  induction d with
  | nil => rfl
  | cons kv rest ih =>
    obtain ⟨k2, v2⟩ := kv
    rw [dkeys_cons] at h
    have h1 : k ≠ k2 := fun hh => h (List.mem_cons.mpr (Or.inl hh))
    have h2 : k ∉ dkeys rest := fun hh => h (List.mem_cons.mpr (Or.inr hh))
    simp [dinsert, h1, ih h2]

theorem dpop_perm (k : Key) :
    ∀ (d d2 : Dict α) (v : α), dpop k d = some (v, d2) →
      (dkeys d).Perm (k :: dkeys d2) := by
  intro d
  induction d with
  | nil => intro d2 v h; simp [dpop] at h
  | cons kv rest ih =>
    intro d2 v h
    obtain ⟨k2, v2⟩ := kv
    by_cases hk : k = k2
    · subst hk
      have h2 : v2 = v ∧ rest = d2 := by simpa [dpop] using h
      rw [dkeys_cons, h2.2]
    · simp only [dpop, if_neg hk] at h
      cases hp : dpop k rest with
      | none =>
        rw [hp] at h
        simp at h
      | some p =>
        obtain ⟨pv, pd⟩ := p
        rw [hp] at h
        simp at h
        obtain ⟨h1, h2⟩ := h
        have hperm := ih pd pv hp
        rw [dkeys_cons, ← h2, dkeys_cons]
        exact ((hperm.cons k2).trans (List.Perm.swap k k2 (dkeys pd)))

end H3

namespace H3

variable {α : Type}

theorem csdGo_spec :
    ∀ (ks : List Key) (d acc : Dict α),
    ks.Perm (dkeys d) →
    (dkeys d).Nodup →
    (∀ k, k ∈ dkeys d → k ∉ dkeys acc) →
    (∀ k, k ∈ dkeys d → rename_key k ∉ dkeys acc) →
    (∀ k k2, k ∈ dkeys d → k2 ∈ dkeys d → rename_key k = k2 → k = k2) →
    (∀ k k2, k ∈ dkeys d → k2 ∈ dkeys d → rename_key k = rename_key k2 → k = k2) →
    csdGo ks (d ++ acc) = acc ++ ks.filterMap (fun m =>
      (dlookup m d).map (fun w => (rename_key m, w))) := by
  intro ks
  induction ks with
  | nil =>
    intro d acc hperm _ _ _ _ _
    have hd : dkeys d = [] := hperm.symm.eq_nil
    have hd2 : d = [] := by
      cases d with
      | nil => rfl
      | cons a t => simp [dkeys] at hd
    subst hd2
    simp [csdGo]
  | cons k ks ih =>
    intro d acc hperm hnd hdisj hrdisj himg hinj
    have hkmem : k ∈ dkeys d := hperm.subset (List.mem_cons_self k ks)
    obtain ⟨v, hv⟩ : ∃ v, dlookup k d = some v := by
      have h1 := dlookup_isSome_iff.mpr hkmem
      exact Option.isSome_iff_exists.mp h1
    obtain ⟨d2, hpop, hframe, hsub, hndc⟩ := dpop_of_lookup hv
    obtain ⟨hnd2, hknone⟩ := hndc hnd
    have hknotin : k ∉ dkeys d2 := dlookup_none_iff.mp hknone
    have hstep : csdStep k (d ++ acc) = dinsert (rename_key k) v (d2 ++ acc) := by
      unfold csdStep
      rw [dpop_append k acc d d2 v hpop]
    have hrk : rename_key k ∉ dkeys (d2 ++ acc) := by
      rw [dkeys_append]
      intro hmem
      rcases List.mem_append.mp hmem with hm | hm
      · have h2 : rename_key k ∈ dkeys d := hsub _ hm
        have h3 : k = rename_key k := himg k (rename_key k) hkmem h2 rfl
        rw [← h3] at hm
        exact hknotin hm
      · exact hrdisj k hkmem hm
    have hins : dinsert (rename_key k) v (d2 ++ acc) =
        (d2 ++ acc) ++ [(rename_key k, v)] := dinsert_append_of_not_mem hrk v
    have hpermd2 : ks.Perm (dkeys d2) := by
      have h4 := dpop_perm k d d2 v hpop
      exact (hperm.trans h4).cons_inv
    have IH := ih d2 (acc ++ [(rename_key k, v)]) hpermd2 hnd2
      (fun m hm => by
        rw [dkeys_append]
        intro hmm
        rcases List.mem_append.mp hmm with h6 | h6
        · exact hdisj m (hsub m hm) h6
        · have h7 : m = rename_key k := by simpa [dkeys] using h6
          have h8 := himg k m hkmem (hsub m hm) h7.symm
          rw [h8] at hknotin
          exact hknotin hm)
      (fun m hm => by
        rw [dkeys_append]
        intro hmm
        rcases List.mem_append.mp hmm with h6 | h6
        · exact hrdisj m (hsub m hm) h6
        · have h7 : rename_key m = rename_key k := by simpa [dkeys] using h6
          have h8 := hinj m k (hsub m hm) hkmem h7
          rw [h8] at hm
          exact hknotin hm)
      (fun a b ha hb => himg a b (hsub a ha) (hsub b hb))
      (fun a b ha hb => hinj a b (hsub a ha) (hsub b hb))
    have hnodups : (k :: ks).Nodup := hperm.symm.nodup hnd
    have hknotks : k ∉ ks := (List.nodup_cons.mp hnodups).1
    have hcongr : ks.filterMap (fun m => (dlookup m d2).map (fun w => (rename_key m, w)))
        = ks.filterMap (fun m => (dlookup m d).map (fun w => (rename_key m, w))) := by
      apply List.filterMap_congr
      intro m hm
      have hne : m ≠ k := fun hh => hknotks (hh ▸ hm)
      rw [hframe m hne]
    have hhead : (k :: ks).filterMap (fun m =>
        (dlookup m d).map (fun w => (rename_key m, w))) =
        (rename_key k, v) :: ks.filterMap (fun m =>
        (dlookup m d).map (fun w => (rename_key m, w))) := by
      simp [List.filterMap_cons, hv]
    calc csdGo (k :: ks) (d ++ acc)
        = csdGo ks (csdStep k (d ++ acc)) := rfl
      _ = csdGo ks (d2 ++ (acc ++ [(rename_key k, v)])) := by
          rw [hstep, hins, List.append_assoc]
      _ = (acc ++ [(rename_key k, v)]) ++ ks.filterMap (fun m =>
          (dlookup m d2).map (fun w => (rename_key m, w))) := IH
      _ = acc ++ ((k :: ks).filterMap (fun m =>
          (dlookup m d).map (fun w => (rename_key m, w)))) := by
          rw [hcongr, hhead, List.append_assoc]
          simp

theorem filterMap_keys_eq :
    ∀ d : Dict α, (dkeys d).Nodup →
      (dkeys d).filterMap (fun m => (dlookup m d).map (fun w => (rename_key m, w)))
        = d.map (fun kv => (rename_key kv.1, kv.2)) := by
  intro d
  induction d with
  | nil => intro _; rfl
  | cons kv rest ih =>
    intro hnd
    obtain ⟨k0, v0⟩ := kv
    rw [dkeys_cons] at hnd
    have h1 := List.nodup_cons.mp hnd
    have hhead : dlookup k0 ((k0, v0) :: rest) = some v0 := by simp [dlookup]
    have hstep : (k0 :: dkeys rest).filterMap (fun m =>
        (dlookup m ((k0, v0) :: rest)).map (fun w => (rename_key m, w))) =
        (rename_key k0, v0) :: (dkeys rest).filterMap (fun m =>
        (dlookup m ((k0, v0) :: rest)).map (fun w => (rename_key m, w))) := by
      simp [List.filterMap_cons, hhead]
    rw [dkeys_cons, hstep]
    have hcongr : (dkeys rest).filterMap (fun m =>
        (dlookup m ((k0, v0) :: rest)).map (fun w => (rename_key m, w))) =
        (dkeys rest).filterMap (fun m =>
        (dlookup m rest).map (fun w => (rename_key m, w))) := by
      apply List.filterMap_congr
      intro m hm
      have hne : m ≠ k0 := fun hh => h1.1 (hh ▸ hm)
      simp [dlookup, hne]
    rw [hcongr, ih h1.2]
    rfl

end H3

namespace H3

/-- C4: on every mapping with distinct keys on which `rename_key` is
injective over the key set, the in-place pop/insert loop of
`convert_state_dict` equals the pure per-entry map
`(k, t) -> (rename_key k, t)`, and visiting the keys in any order yields
the same final mapping (a permutation of the same entries). -/
theorem C4_convert_state_dict_pure {α : Type} (d : Dict α)
    (hnd : (dkeys d).Nodup)
    (hinj : ∀ k, k ∈ dkeys d → ∀ k2, k2 ∈ dkeys d →
      rename_key k = rename_key k2 → k = k2) :
    convert_state_dict d = d.map (fun kv => (rename_key kv.1, kv.2)) ∧
    (∀ ks, ks.Perm (dkeys d) →
      (csdGo ks d).Perm (d.map (fun kv => (rename_key kv.1, kv.2)))) := by
  have himg : ∀ k k2, k ∈ dkeys d → k2 ∈ dkeys d → rename_key k = k2 → k = k2 := by
    intro k k2 hk hk2 h
    apply hinj k hk k2 hk2
    calc rename_key k = rename_key (rename_key k) := (rename_key_idem_aux k).symm
      _ = rename_key k2 := by rw [h]
  have hinj2 : ∀ k k2, k ∈ dkeys d → k2 ∈ dkeys d →
      rename_key k = rename_key k2 → k = k2 := fun k k2 hk hk2 h => hinj k hk k2 hk2 h
  constructor
  · have hmain := csdGo_spec (dkeys d) d [] (List.Perm.refl _) hnd
      (fun k _ => by simp [dkeys]) (fun k _ => by simp [dkeys]) himg hinj2
    rw [List.append_nil] at hmain
    unfold convert_state_dict
    rw [hmain, filterMap_keys_eq d hnd]
    simp
  · intro ks hks
    have h2 := csdGo_spec ks d [] hks hnd
      (fun k _ => by simp [dkeys]) (fun k _ => by simp [dkeys]) himg hinj2
    rw [List.append_nil] at h2
    rw [h2]
    simp only [List.nil_append]
    rw [← filterMap_keys_eq d hnd]
    exact hks.filterMap _

/-- Witness for C4 on a concrete two-entry mapping. -/
theorem C4_convert_state_dict_pure_witness :
    convert_state_dict [(("backbone.layers.0.mixer.weight").data, (1 : Nat)),
        (("lm_head.weight").data, (2 : Nat))] =
      ([(("backbone.layers.0.mixer.weight").data, (1 : Nat)),
        (("lm_head.weight").data, (2 : Nat))].map
          (fun kv => (rename_key kv.1, kv.2))) ∧
    (∀ ks, ks.Perm (dkeys [(("backbone.layers.0.mixer.weight").data, (1 : Nat)),
        (("lm_head.weight").data, (2 : Nat))]) →
      (csdGo ks [(("backbone.layers.0.mixer.weight").data, (1 : Nat)),
        (("lm_head.weight").data, (2 : Nat))]).Perm
        ([(("backbone.layers.0.mixer.weight").data, (1 : Nat)),
          (("lm_head.weight").data, (2 : Nat))].map
            (fun kv => (rename_key kv.1, kv.2)))) :=
  C4_convert_state_dict_pure _ (by decide) (by decide)

end H3

namespace H3

/-! ### Canonical legacy dict lemmas -/

variable {α : Type}

theorem dlookup_append_some {k : Key} {a : Dict α} {v : α} (h : dlookup k a = some v)
    (b : Dict α) : dlookup k (a ++ b) = some v := by
  induction a with
  | nil => simp [dlookup] at h
  | cons kv rest ih =>
    obtain ⟨k2, v2⟩ := kv
    by_cases hk : k = k2
    · subst hk
      have h2 : v2 = v := by simpa [dlookup] using h
      simp [dlookup, h2]
    · simp only [dlookup, if_neg hk] at h
      simp [dlookup, hk, ih h]

theorem dlookup_append_none {k : Key} {a : Dict α} (h : dlookup k a = none)
    (b : Dict α) : dlookup k (a ++ b) = dlookup k b := by
  induction a with
  | nil => rfl
  | cons kv rest ih =>
    obtain ⟨k2, v2⟩ := kv
    by_cases hk : k = k2
    · subst hk
      simp [dlookup] at h
    · simp only [dlookup, if_neg hk] at h
      simp [dlookup, hk, ih h]

theorem mem_dkeys_legacyLayers {W1 B1 W2 B2 : Nat → α} :
    ∀ (L : Nat) (q : Key), q ∈ dkeys (legacyLayers W1 B1 W2 B2 L) ↔
      ∃ l, l < L ∧ (q = layerKey l sufN1w ∨ q = layerKey l sufN1b ∨
        q = layerKey l sufN2w ∨ q = layerKey l sufN2b) := by
  intro L
  induction L with
  | zero =>
    intro q
    simp [legacyLayers, dkeys]
  | succ L ih =>
    intro q
    rw [legacyLayers, dkeys_append, List.mem_append, ih q]
    constructor
    · rintro (⟨l, hl, h⟩ | h)
      · exact ⟨l, by omega, h⟩
      · simp only [dkeys, List.map_cons, List.map_nil, List.mem_cons,
          List.mem_singleton] at h
        rcases h with h | h | h | h | h
        · exact ⟨L, by omega, Or.inl h⟩
        · exact ⟨L, by omega, Or.inr (Or.inl h)⟩
        · exact ⟨L, by omega, Or.inr (Or.inr (Or.inl h))⟩
        · exact ⟨L, by omega, Or.inr (Or.inr (Or.inr h))⟩
        · cases h
    · rintro ⟨l, hl, h⟩
      rcases Nat.lt_or_ge l L with h2 | h2
      · exact Or.inl ⟨l, h2, h⟩
      · have hl2 : l = L := by omega
        subst hl2
        right
        simp only [dkeys, List.map_cons, List.map_nil, List.mem_cons, List.mem_singleton]
        tauto

theorem legacyLayers_lookup {W1 B1 W2 B2 : Nat → α} :
    ∀ (L : Nat) (l : Nat), l < L →
      dlookup (layerKey l sufN1w) (legacyLayers W1 B1 W2 B2 L) = some (W1 l) ∧
      dlookup (layerKey l sufN1b) (legacyLayers W1 B1 W2 B2 L) = some (B1 l) ∧
      dlookup (layerKey l sufN2w) (legacyLayers W1 B1 W2 B2 L) = some (W2 l) ∧
      dlookup (layerKey l sufN2b) (legacyLayers W1 B1 W2 B2 L) = some (B2 l) := by
  intro L
  induction L with
  | zero => intro l hl; omega
  | succ L ih =>
    intro l hl
    rcases Nat.lt_or_ge l L with h2 | h2
    · obtain ⟨ha, hb, hc, hd⟩ := ih l h2
      exact ⟨dlookup_append_some ha _, dlookup_append_some hb _,
        dlookup_append_some hc _, dlookup_append_some hd _⟩
    · have hl2 : l = L := by omega
      subst hl2
      have hniw : dlookup (layerKey l sufN1w) (legacyLayers W1 B1 W2 B2 l) = none := by
        rw [dlookup_none_iff, mem_dkeys_legacyLayers]
        rintro ⟨l2, hl2, h | h | h | h⟩
        · exact lk_ne_of_idx shape_n1w shape_n1w (by omega) h
        · exact lk_ne_of_suf shape_n1w shape_n1b (by decide) l l2 h
        · exact lk_ne_of_suf shape_n1w shape_n2w (by decide) l l2 h
        · exact lk_ne_of_suf shape_n1w shape_n2b (by decide) l l2 h
      have hnib : dlookup (layerKey l sufN1b) (legacyLayers W1 B1 W2 B2 l) = none := by
        rw [dlookup_none_iff, mem_dkeys_legacyLayers]
        rintro ⟨l2, hl2, h | h | h | h⟩
        · exact lk_ne_of_suf shape_n1b shape_n1w (by decide) l l2 h
        · exact lk_ne_of_idx shape_n1b shape_n1b (by omega) h
        · exact lk_ne_of_suf shape_n1b shape_n2w (by decide) l l2 h
        · exact lk_ne_of_suf shape_n1b shape_n2b (by decide) l l2 h
      have hn2w : dlookup (layerKey l sufN2w) (legacyLayers W1 B1 W2 B2 l) = none := by
        rw [dlookup_none_iff, mem_dkeys_legacyLayers]
        rintro ⟨l2, hl2, h | h | h | h⟩
        · exact lk_ne_of_suf shape_n2w shape_n1w (by decide) l l2 h
        · exact lk_ne_of_suf shape_n2w shape_n1b (by decide) l l2 h
        · exact lk_ne_of_idx shape_n2w shape_n2w (by omega) h
        · exact lk_ne_of_suf shape_n2w shape_n2b (by decide) l l2 h
      have hn2b : dlookup (layerKey l sufN2b) (legacyLayers W1 B1 W2 B2 l) = none := by
        rw [dlookup_none_iff, mem_dkeys_legacyLayers]
        rintro ⟨l2, hl2, h | h | h | h⟩
        · exact lk_ne_of_suf shape_n2b shape_n1w (by decide) l l2 h
        · exact lk_ne_of_suf shape_n2b shape_n1b (by decide) l l2 h
        · exact lk_ne_of_suf shape_n2b shape_n2w (by decide) l l2 h
        · exact lk_ne_of_idx shape_n2b shape_n2b (by omega) h
      have e1 : layerKey l sufN1w ≠ layerKey l sufN1b :=
        lk_ne_of_suf shape_n1w shape_n1b (by decide) l l
      have e2 : layerKey l sufN1w ≠ layerKey l sufN2w :=
        lk_ne_of_suf shape_n1w shape_n2w (by decide) l l
      have e3 : layerKey l sufN1b ≠ layerKey l sufN2w :=
        lk_ne_of_suf shape_n1b shape_n2w (by decide) l l
      have e4 : layerKey l sufN1b ≠ layerKey l sufN1w :=
        lk_ne_of_suf shape_n1b shape_n1w (by decide) l l
      have e5 : layerKey l sufN2w ≠ layerKey l sufN1w :=
        lk_ne_of_suf shape_n2w shape_n1w (by decide) l l
      have e6 : layerKey l sufN2w ≠ layerKey l sufN1b :=
        lk_ne_of_suf shape_n2w shape_n1b (by decide) l l
      have e7 : layerKey l sufN2b ≠ layerKey l sufN1w :=
        lk_ne_of_suf shape_n2b shape_n1w (by decide) l l
      have e8 : layerKey l sufN2b ≠ layerKey l sufN1b :=
        lk_ne_of_suf shape_n2b shape_n1b (by decide) l l
      have e9 : layerKey l sufN2b ≠ layerKey l sufN2w :=
        lk_ne_of_suf shape_n2b shape_n2w (by decide) l l
      simp only [legacyLayers]
      refine ⟨?_, ?_, ?_, ?_⟩
      · rw [dlookup_append_none hniw]
        simp [dlookup]
      · rw [dlookup_append_none hnib]
        simp [dlookup, e4]
      · rw [dlookup_append_none hn2w]
        simp [dlookup, e5, e6]
      · rw [dlookup_append_none hn2b]
        simp [dlookup, e7, e8, e9]

end H3

namespace H3

variable {α : Type}

theorem nodup_legacyLayers {W1 B1 W2 B2 : Nat → α} :
    ∀ L : Nat, (dkeys (legacyLayers W1 B1 W2 B2 L)).Nodup := by
  intro L
  induction L with
  | zero => simp [legacyLayers, dkeys]
  | succ L ih =>
    rw [legacyLayers, dkeys_append]
    apply List.nodup_append.mpr
    refine ⟨ih, ?_, ?_⟩
    · simp only [dkeys, List.map_cons, List.map_nil]
      refine List.nodup_cons.mpr ⟨?_, List.nodup_cons.mpr ⟨?_, List.nodup_cons.mpr
        ⟨?_, List.nodup_singleton _⟩⟩⟩
      · intro h
        rcases List.mem_cons.mp h with h | h
        · exact lk_ne_of_suf shape_n1w shape_n1b (by decide) L L h
        rcases List.mem_cons.mp h with h | h
        · exact lk_ne_of_suf shape_n1w shape_n2w (by decide) L L h
        rcases List.mem_singleton.mp h with h
        · exact lk_ne_of_suf shape_n1w shape_n2b (by decide) L L h
      · intro h
        rcases List.mem_cons.mp h with h | h
        · exact lk_ne_of_suf shape_n1b shape_n2w (by decide) L L h
        rcases List.mem_singleton.mp h with h
        · exact lk_ne_of_suf shape_n1b shape_n2b (by decide) L L h
      · intro h
        rcases List.mem_singleton.mp h with h
        · exact lk_ne_of_suf shape_n2w shape_n2b (by decide) L L h
    · intro a ha hb
      rw [mem_dkeys_legacyLayers] at ha
      obtain ⟨l, hl, ha⟩ := ha
      simp only [dkeys, List.map_cons, List.map_nil, List.mem_cons,
        List.mem_singleton, List.not_mem_nil] at hb
      have hidx : l ≠ L := by omega
      rcases ha with ha | ha | ha | ha <;> subst ha <;>
        rcases hb with hb | hb | hb | hb | hb
      all_goals first
        | exact lk_ne_of_idx shape_n1w shape_n1w hidx hb
        | exact lk_ne_of_suf shape_n1w shape_n1b (by decide) l L hb
        | exact lk_ne_of_suf shape_n1w shape_n2w (by decide) l L hb
        | exact lk_ne_of_suf shape_n1w shape_n2b (by decide) l L hb
        | exact lk_ne_of_suf shape_n1b shape_n1w (by decide) l L hb
        | exact lk_ne_of_idx shape_n1b shape_n1b hidx hb
        | exact lk_ne_of_suf shape_n1b shape_n2w (by decide) l L hb
        | exact lk_ne_of_suf shape_n1b shape_n2b (by decide) l L hb
        | exact lk_ne_of_suf shape_n2w shape_n1w (by decide) l L hb
        | exact lk_ne_of_suf shape_n2w shape_n1b (by decide) l L hb
        | exact lk_ne_of_idx shape_n2w shape_n2w hidx hb
        | exact lk_ne_of_suf shape_n2w shape_n2b (by decide) l L hb
        | exact lk_ne_of_suf shape_n2b shape_n1w (by decide) l L hb
        | exact lk_ne_of_suf shape_n2b shape_n1b (by decide) l L hb
        | exact lk_ne_of_suf shape_n2b shape_n2w (by decide) l L hb
        | exact lk_ne_of_idx shape_n2b shape_n2b hidx hb
        | exact hb

theorem length_legacyLayers {W1 B1 W2 B2 : Nat → α} :
    ∀ L : Nat, (legacyLayers W1 B1 W2 B2 L).length = 4 * L := by
  intro L
  induction L with
  | zero => rfl
  | succ L ih =>
    rw [legacyLayers, List.length_append, ih]
    simp
    omega

end H3

namespace H3

variable {α : Type}

theorem legacyDict_props (L : Nat) (W1 B1 W2 B2 : Nat → α) (sw sb : α) :
    dlookup ln0w (legacyDict L W1 B1 W2 B2 sw sb) = some sw ∧
    dlookup ln0b (legacyDict L W1 B1 W2 B2 sw sb) = some sb ∧
    (∀ l, l < L →
      dlookup (layerKey l sufN1w) (legacyDict L W1 B1 W2 B2 sw sb) = some (W1 l) ∧
      dlookup (layerKey l sufN1b) (legacyDict L W1 B1 W2 B2 sw sb) = some (B1 l)) ∧
    (∀ l, l < L →
      dlookup (layerKey l sufN2w) (legacyDict L W1 B1 W2 B2 sw sb) = some (W2 l) ∧
      dlookup (layerKey l sufN2b) (legacyDict L W1 B1 W2 B2 sw sb) = some (B2 l)) ∧
    (dkeys (legacyDict L W1 B1 W2 B2 sw sb)).Nodup ∧
    (∀ q, q ∈ dkeys (legacyDict L W1 B1 W2 B2 sw sb) ↔
      q = ln0w ∨ q = ln0b ∨ ∃ l, l < L ∧ (q = layerKey l sufN1w ∨ q = layerKey l sufN1b ∨
        q = layerKey l sufN2w ∨ q = layerKey l sufN2b)) ∧
    (legacyDict L W1 B1 W2 B2 sw sb).length = 4 * L + 2 := by
  have hln0w_left : dlookup ln0w (legacyLayers W1 B1 W2 B2 L) = none := by
    rw [dlookup_none_iff, mem_dkeys_legacyLayers]
    rintro ⟨l, hl, h | h | h | h⟩
    · exact lk_ne_ln0w l sufN1w h.symm
    · exact lk_ne_ln0w l sufN1b h.symm
    · exact lk_ne_ln0w l sufN2w h.symm
    · exact lk_ne_ln0w l sufN2b h.symm
  have hln0b_left : dlookup ln0b (legacyLayers W1 B1 W2 B2 L) = none := by
    rw [dlookup_none_iff, mem_dkeys_legacyLayers]
    rintro ⟨l, hl, h | h | h | h⟩
    · exact lk_ne_ln0b l sufN1w h.symm
    · exact lk_ne_ln0b l sufN1b h.symm
    · exact lk_ne_ln0b l sufN2w h.symm
    · exact lk_ne_ln0b l sufN2b h.symm
  refine ⟨?_, ?_, ?_, ?_, ?_, ?_, ?_⟩
  · unfold legacyDict
    rw [dlookup_append_none hln0w_left]
    simp [dlookup]
  · unfold legacyDict
    rw [dlookup_append_none hln0b_left]
    have hne : ln0b ≠ ln0w := by decide
    simp [dlookup, hne]
  · intro l hl
    obtain ⟨ha, hb, _, _⟩ := legacyLayers_lookup L l hl
    exact ⟨dlookup_append_some ha _, dlookup_append_some hb _⟩
  · intro l hl
    obtain ⟨_, _, hc, hd⟩ := legacyLayers_lookup L l hl
    exact ⟨dlookup_append_some hc _, dlookup_append_some hd _⟩
  · unfold legacyDict
    rw [dkeys_append]
    apply List.nodup_append.mpr
    refine ⟨nodup_legacyLayers L, by simp [dkeys]; decide, ?_⟩
    intro a ha hb
    rw [mem_dkeys_legacyLayers] at ha
    obtain ⟨l, hl, ha⟩ := ha
    simp only [dkeys, List.map_cons, List.map_nil, List.mem_cons,
      List.mem_singleton, List.not_mem_nil] at hb
    rcases ha with ha | ha | ha | ha <;> subst ha <;> rcases hb with hb | hb | hb
    all_goals first
      | exact lk_ne_ln0w _ _ hb
      | exact lk_ne_ln0b _ _ hb
      | exact hb
  · intro q
    unfold legacyDict
    rw [dkeys_append, List.mem_append, mem_dkeys_legacyLayers]
    simp only [dkeys, List.map_cons, List.map_nil, List.mem_cons,
      List.mem_singleton, List.not_mem_nil, or_false]
    constructor
    · rintro (⟨l, hl, h⟩ | h | h)
      · exact Or.inr (Or.inr ⟨l, hl, h⟩)
      · exact Or.inl h
      · exact Or.inr (Or.inl h)
    · rintro (h | h | ⟨l, hl, h⟩)
      · exact Or.inr (Or.inl h)
      · exact Or.inr (Or.inr h)
      · exact Or.inl ⟨l, hl, h⟩
  · unfold legacyDict
    rw [List.length_append, length_legacyLayers]
    simp

end H3

namespace H3

theorem mem_n2Keys : ∀ (L : Nat) (q : Key), q ∈ n2Keys L ↔
    ∃ l, l < L ∧ (q = layerKey l sufN2w ∨ q = layerKey l sufN2b) := by
  intro L
  induction L with
  | zero => intro q; simp [n2Keys]
  | succ L ih =>
    intro q
    rw [n2Keys, List.mem_append, ih q]
    simp only [List.mem_cons, List.mem_singleton, List.not_mem_nil, or_false]
    constructor
    · rintro (⟨l, hl, h⟩ | h | h)
      · exact ⟨l, by omega, h⟩
      · exact ⟨L, by omega, Or.inl h⟩
      · exact ⟨L, by omega, Or.inr h⟩
    · rintro ⟨l, hl, h⟩
      rcases Nat.lt_or_ge l L with h2 | h2
      · exact Or.inl ⟨l, h2, h⟩
      · have : l = L := by omega
        subst this
        rcases h with h | h
        · exact Or.inr (Or.inl h)
        · exact Or.inr (Or.inr h)

theorem mem_n1Keys : ∀ (m : Nat) (q : Key), q ∈ n1Keys m ↔
    ∃ l, 0 < l ∧ l ≤ m ∧ (q = layerKey l sufN1w ∨ q = layerKey l sufN1b) := by
  intro m
  induction m with
  | zero => intro q; simp [n1Keys]; omega
  | succ m ih =>
    intro q
    rw [n1Keys, List.mem_append, ih q]
    simp only [List.mem_cons, List.mem_singleton, List.not_mem_nil, or_false]
    constructor
    · rintro (⟨l, h0, hl, h⟩ | h | h)
      · exact ⟨l, h0, by omega, h⟩
      · exact ⟨m + 1, by omega, by omega, Or.inl h⟩
      · exact ⟨m + 1, by omega, by omega, Or.inr h⟩
    · rintro ⟨l, h0, hl, h⟩
      rcases Nat.lt_or_ge l (m + 1) with h2 | h2
      · exact Or.inl ⟨l, h0, by omega, h⟩
      · have : l = m + 1 := by omega
        subst this
        rcases h with h | h
        · exact Or.inr (Or.inl h)
        · exact Or.inr (Or.inr h)

theorem nodup_n2Keys : ∀ L : Nat, (n2Keys L).Nodup := by
  intro L
  induction L with
  | zero => simp [n2Keys]
  | succ L ih =>
    rw [n2Keys]
    apply List.nodup_append.mpr
    refine ⟨ih, ?_, ?_⟩
    · refine List.nodup_cons.mpr ⟨?_, List.nodup_singleton _⟩
      intro h
      exact lk_ne_of_suf shape_n2w shape_n2b (by decide) L L (List.mem_singleton.mp h)
    · intro a ha hb
      rw [mem_n2Keys] at ha
      obtain ⟨l, hl, ha⟩ := ha
      have hidx : l ≠ L := by omega
      simp only [List.mem_cons, List.mem_singleton, List.not_mem_nil, or_false] at hb
      rcases ha with ha | ha <;> subst ha <;> rcases hb with hb | hb
      · exact lk_ne_of_idx shape_n2w shape_n2w hidx hb
      · exact lk_ne_of_suf shape_n2w shape_n2b (by decide) l L hb
      · exact lk_ne_of_suf shape_n2b shape_n2w (by decide) l L hb
      · exact lk_ne_of_idx shape_n2b shape_n2b hidx hb

theorem nodup_n1Keys : ∀ m : Nat, (n1Keys m).Nodup := by
  intro m
  induction m with
  | zero => simp [n1Keys]
  | succ m ih =>
    rw [n1Keys]
    apply List.nodup_append.mpr
    refine ⟨ih, ?_, ?_⟩
    · refine List.nodup_cons.mpr ⟨?_, List.nodup_singleton _⟩
      intro h
      exact lk_ne_of_suf shape_n1w shape_n1b (by decide) (m + 1) (m + 1)
        (List.mem_singleton.mp h)
    · intro a ha hb
      rw [mem_n1Keys] at ha
      obtain ⟨l, h0, hl, ha⟩ := ha
      have hidx : l ≠ m + 1 := by omega
      simp only [List.mem_cons, List.mem_singleton, List.not_mem_nil, or_false] at hb
      rcases ha with ha | ha <;> subst ha <;> rcases hb with hb | hb
      · exact lk_ne_of_idx shape_n1w shape_n1w hidx hb
      · exact lk_ne_of_suf shape_n1w shape_n1b (by decide) l (m + 1) hb
      · exact lk_ne_of_suf shape_n1b shape_n1w (by decide) l (m + 1) hb
      · exact lk_ne_of_idx shape_n1b shape_n1b hidx hb

theorem length_n2Keys : ∀ L : Nat, (n2Keys L).length = 2 * L := by
  intro L
  induction L with
  | zero => rfl
  | succ L ih => rw [n2Keys, List.length_append, ih]; simp; omega

theorem length_n1Keys : ∀ m : Nat, (n1Keys m).length = 2 * m := by
  intro m
  induction m with
  | zero => rfl
  | succ m ih => rw [n1Keys, List.length_append, ih]; simp; omega

theorem mem_reindexedKeys (L : Nat) (q : Key) : q ∈ reindexedKeys L ↔
    q = lnfw ∨ q = lnfb ∨
    (∃ l, l < L ∧ (q = layerKey l sufN2w ∨ q = layerKey l sufN2b)) ∨
    (∃ l, 0 < l ∧ l ≤ L - 1 ∧ (q = layerKey l sufN1w ∨ q = layerKey l sufN1b)) ∨
    q = blk0w ∨ q = blk0b := by
  unfold reindexedKeys
  simp only [List.mem_append, List.mem_cons, List.mem_singleton, List.not_mem_nil,
    or_false, mem_n2Keys, mem_n1Keys]
  simp only [or_assoc]

theorem nodup_reindexedKeys (L : Nat) : (reindexedKeys L).Nodup := by
  unfold reindexedKeys
  apply List.nodup_append.mpr
  refine ⟨?_, by decide, ?_⟩
  apply List.nodup_append.mpr
  refine ⟨?_, nodup_n1Keys _, ?_⟩
  apply List.nodup_append.mpr
  refine ⟨by decide, nodup_n2Keys _, ?_⟩
  · intro a ha hb
    rw [mem_n2Keys] at hb
    obtain ⟨l, hl, hb⟩ := hb
    simp only [List.mem_cons, List.mem_singleton, List.not_mem_nil, or_false] at ha
    rcases ha with ha | ha <;> subst ha <;> rcases hb with hb | hb
    · exact lk_ne_lnfw l sufN2w hb.symm
    · exact lk_ne_lnfw l sufN2b hb.symm
    · exact lk_ne_lnfb l sufN2w hb.symm
    · exact lk_ne_lnfb l sufN2b hb.symm
  · intro a ha hb
    rw [mem_n1Keys] at hb
    obtain ⟨l, h0, hl, hb⟩ := hb
    rcases List.mem_append.mp ha with ha | ha
    · simp only [List.mem_cons, List.mem_singleton, List.not_mem_nil, or_false] at ha
      rcases ha with ha | ha <;> subst ha <;> rcases hb with hb | hb
      · exact lk_ne_lnfw l sufN1w hb.symm
      · exact lk_ne_lnfw l sufN1b hb.symm
      · exact lk_ne_lnfb l sufN1w hb.symm
      · exact lk_ne_lnfb l sufN1b hb.symm
    · rw [mem_n2Keys] at ha
      obtain ⟨l2, hl2, ha⟩ := ha
      rcases ha with ha | ha <;> subst ha <;> rcases hb with hb | hb
      · exact lk_ne_of_suf shape_n2w shape_n1w (by decide) l2 l hb
      · exact lk_ne_of_suf shape_n2w shape_n1b (by decide) l2 l hb
      · exact lk_ne_of_suf shape_n2b shape_n1w (by decide) l2 l hb
      · exact lk_ne_of_suf shape_n2b shape_n1b (by decide) l2 l hb
  · intro a ha hb
    simp only [List.mem_cons, List.mem_singleton, List.not_mem_nil, or_false] at hb
    rcases List.mem_append.mp ha with ha | ha
    · rcases List.mem_append.mp ha with ha | ha
      · simp only [List.mem_cons, List.mem_singleton, List.not_mem_nil, or_false] at ha
        rcases ha with ha | ha <;> subst ha <;> rcases hb with hb | hb <;> revert hb <;> decide
      · rw [mem_n2Keys] at ha
        obtain ⟨l, hl, ha⟩ := ha
        rcases ha with ha | ha <;> subst ha <;> rcases hb with hb | hb
        · exact lk_ne_blk0w l sufN2w hb
        · exact lk_ne_blk0b l sufN2w hb
        · exact lk_ne_blk0w l sufN2b hb
        · exact lk_ne_blk0b l sufN2b hb
    · rw [mem_n1Keys] at ha
      obtain ⟨l, h0, hl, ha⟩ := ha
      rcases ha with ha | ha <;> subst ha <;> rcases hb with hb | hb
      · exact lk_ne_blk0w l sufN1w hb
      · exact lk_ne_blk0b l sufN1w hb
      · exact lk_ne_blk0w l sufN1b hb
      · exact lk_ne_blk0b l sufN1b hb

theorem length_reindexedKeys (L : Nat) (hL : 0 < L) :
    (reindexedKeys L).length = 4 * L + 2 := by
  unfold reindexedKeys
  simp only [List.length_append, length_n2Keys, length_n1Keys]
  simp
  omega

end H3

namespace H3

/-- Full characterization of reindexing on the canonical legacy mapping. -/
theorem reindex_canonical {α : Type} (L : Nat) (hL : 0 < L)
    (W1 B1 W2 B2 : Nat → α) (sw sb : α) :
    ∃ out, reindex L (legacyDict L W1 B1 W2 B2 sw sb) = some out ∧
      dlookup lnfw out = some (W2 (L - 1)) ∧
      dlookup lnfb out = some (B2 (L - 1)) ∧
      (∀ l, l < L → dlookup (layerKey l sufN2w) out = some (W1 l) ∧
        dlookup (layerKey l sufN2b) out = some (B1 l)) ∧
      (∀ l, 0 < l → l < L → dlookup (layerKey l sufN1w) out = some (W2 (l - 1)) ∧
        dlookup (layerKey l sufN1b) out = some (B2 (l - 1))) ∧
      dlookup blk0w out = some sw ∧ dlookup blk0b out = some sb ∧
      dlookup (layerKey 0 sufN1w) out = none ∧
      dlookup (layerKey 0 sufN1b) out = none ∧
      (dkeys out).Nodup ∧
      (∀ q, q ∈ dkeys out ↔ q ∈ reindexedKeys L) := by
  obtain ⟨h0w, h0b, hn1, hn2, hnd, hmem, hlen⟩ := legacyDict_props L W1 B1 W2 B2 sw sb
  obtain ⟨out, heq, hfw, hfb, hA, hB, hbw, hbb, hfr, hK, hN⟩ :=
    reindex_spec L hL _ W1 B1 W2 B2 sw sb h0w h0b hn1 hn2
  obtain ⟨hndo, h01w, h01b, hl0w, hl0b⟩ := hN hnd
  have hcase : ∀ q, q ∈ dkeys out → ∀ l, l < L →
      (q = layerKey l sufN1w ∨ q = layerKey l sufN1b ∨
       q = layerKey l sufN2w ∨ q = layerKey l sufN2b) →
      q = lnfw ∨ q = lnfb ∨
      (∃ l2, l2 < L ∧ (q = layerKey l2 sufN2w ∨ q = layerKey l2 sufN2b)) ∨
      (∃ l2, 0 < l2 ∧ l2 ≤ L - 1 ∧ (q = layerKey l2 sufN1w ∨ q = layerKey l2 sufN1b)) ∨
      q = blk0w ∨ q = blk0b := by
    intro q hq l hl h
    rcases h with h | h | h | h
    · subst h
      rcases Nat.eq_zero_or_pos l with h3 | h3
      · subst h3
        exact absurd hq (dlookup_none_iff.mp h01w)
      · exact Or.inr (Or.inr (Or.inr (Or.inl ⟨l, h3, by omega, Or.inl rfl⟩)))
    · subst h
      rcases Nat.eq_zero_or_pos l with h3 | h3
      · subst h3
        exact absurd hq (dlookup_none_iff.mp h01b)
      · exact Or.inr (Or.inr (Or.inr (Or.inl ⟨l, h3, by omega, Or.inr rfl⟩)))
    · subst h
      exact Or.inr (Or.inr (Or.inl ⟨l, hl, Or.inl rfl⟩))
    · subst h
      exact Or.inr (Or.inr (Or.inl ⟨l, hl, Or.inr rfl⟩))
  have hmemiff : ∀ q, q ∈ dkeys out ↔ q ∈ reindexedKeys L := by
    intro q
    rw [mem_reindexedKeys]
    constructor
    · intro hq
      rcases hK q hq with h | h | h | h | h | ⟨l, hl, h⟩
      · rcases (hmem q).mp h with h2 | h2 | ⟨l, hl, h2⟩
        · subst h2
          exact absurd hq (dlookup_none_iff.mp hl0w)
        · subst h2
          exact absurd hq (dlookup_none_iff.mp hl0b)
        · exact hcase q hq l hl h2
      · exact Or.inl h
      · exact Or.inr (Or.inl h)
      · exact Or.inr (Or.inr (Or.inr (Or.inr (Or.inl h))))
      · exact Or.inr (Or.inr (Or.inr (Or.inr (Or.inr h))))
      · exact hcase q hq l hl h
    · intro hq
      rcases hq with h | h | ⟨l, hl, h⟩ | ⟨l, h0, hl, h⟩ | h | h
      · subst h; exact dlookup_mem_dkeys hfw
      · subst h; exact dlookup_mem_dkeys hfb
      · rcases h with h | h <;> subst h
        · exact dlookup_mem_dkeys (hA l hl).1
        · exact dlookup_mem_dkeys (hA l hl).2
      · have hlL : l < L := by omega
        rcases h with h | h <;> subst h
        · exact dlookup_mem_dkeys (hB l h0 hlL).1
        · exact dlookup_mem_dkeys (hB l h0 hlL).2
      · subst h; exact dlookup_mem_dkeys hbw
      · subst h; exact dlookup_mem_dkeys hbb
  exact ⟨out, heq, hfw, hfb, hA, hB, hbw, hbb, h01w, h01b, hndo, hmemiff⟩

end H3

namespace H3

/-- C2: on a mapping containing exactly the per-layer norm1/norm2
weight+bias entries plus the sentinel entry, reindexing succeeds and
produces a mapping whose key set is exactly the reindexed key set (norm2
for every layer, norm1 for every positive layer, destination-style layer-0
norm1, and the final normalization): same total key count `4L + 2`, no key
lost or duplicated. -/
theorem C2_reindex_bijection {α : Type} (L : Nat) (hL : 0 < L)
    (W1 B1 W2 B2 : Nat → α) (sw sb : α) :
    (legacyDict L W1 B1 W2 B2 sw sb).length = 4 * L + 2 ∧
    ∃ out, reindex L (legacyDict L W1 B1 W2 B2 sw sb) = some out ∧
      (∀ q, q ∈ dkeys out ↔ q ∈ reindexedKeys L) ∧
      (dkeys out).Nodup ∧
      (dkeys out).Perm (reindexedKeys L) ∧
      out.length = 4 * L + 2 := by
  obtain ⟨_, _, _, _, _, _, hlen⟩ := legacyDict_props L W1 B1 W2 B2 sw sb
  obtain ⟨out, heq, _, _, _, _, _, _, _, _, hndo, hmemiff⟩ :=
    reindex_canonical L hL W1 B1 W2 B2 sw sb
  have hperm : (dkeys out).Perm (reindexedKeys L) :=
    (List.perm_ext_iff_of_nodup hndo (nodup_reindexedKeys L)).mpr hmemiff
  have hlenout : out.length = 4 * L + 2 := by
    have h5 : (dkeys out).length = (reindexedKeys L).length := hperm.length_eq
    rw [length_reindexedKeys L hL] at h5
    simpa [dkeys] using h5
  exact ⟨hlen, out, heq, hmemiff, hndo, hperm, hlenout⟩

/-- Witness for C2 at `L = 2`. -/
theorem C2_reindex_bijection_witness :
    (legacyDict 2 (fun l => 10 + l) (fun l => 20 + l) (fun l => 30 + l)
      (fun l => 40 + l) 7 8).length = 4 * 2 + 2 ∧
    ∃ out, reindex 2 (legacyDict 2 (fun l => 10 + l) (fun l => 20 + l)
        (fun l => 30 + l) (fun l => 40 + l) 7 8) = some out ∧
      (∀ q, q ∈ dkeys out ↔ q ∈ reindexedKeys 2) ∧
      (dkeys out).Nodup ∧
      (dkeys out).Perm (reindexedKeys 2) ∧
      out.length = 4 * 2 + 2 :=
  C2_reindex_bijection 2 (by decide) _ _ _ _ 7 8

end H3

namespace H3

/-! ### Substring splitting across an all-digit middle segment -/

theorem isPre_digit_skip {m : Char} (hm : isDig m = true) (rest : List Char) :
    ∀ (a q : List Char), (∀ c ∈ q, isDig c = false) →
      isPre q (a ++ m :: rest) = isPre q a := by
  intro a
  induction a with
  | nil =>
    intro q hq
    cases q with
    | nil => rfl
    | cons qh qt =>
      have h1 : isDig qh = false := hq qh (List.mem_cons_self _ _)
      have h2 : qh ≠ m := by
        intro h
        rw [h, hm] at h1
        exact Bool.noConfusion h1
      simp [isPre, h2]
  | cons ac a2 ih =>
    intro q hq
    cases q with
    | nil => rfl
    | cons qh qt =>
      simp only [List.cons_append, isPre]
      congr 1
      exact ih qt (fun c hc => hq c (List.mem_cons_of_mem _ hc))

theorem containsSub_digit_skip {q : List Char} (hq : ∀ c ∈ q, isDig c = false)
    (hqne : q ≠ []) (suf : List Char) :
    ∀ mid, (∀ c ∈ mid, isDig c = true) →
      containsSub q (mid ++ suf) = containsSub q suf := by
  intro mid
  induction mid with
  | nil => intro _; rfl
  | cons m mid2 ih =>
    intro hdig
    have hm : isDig m = true := hdig m (List.mem_cons_self _ _)
    have h1 : isPre q (m :: (mid2 ++ suf)) = false := by
      cases q with
      | nil => exact absurd rfl hqne
      | cons qh qt =>
        have h2 : isDig qh = false := hq qh (List.mem_cons_self _ _)
        have h3 : qh ≠ m := by
          intro h
          rw [h, hm] at h2
          exact Bool.noConfusion h2
        simp [isPre, h3]
    rw [List.cons_append, containsSub, h1]
    simp only [Bool.false_or]
    exact ih (fun c hc => hdig c (List.mem_cons_of_mem _ hc))

theorem containsSub_digit_split {q : List Char} (hq : ∀ c ∈ q, isDig c = false)
    (hqne : q ≠ []) {m : Char} {mid2 : List Char}
    (hdig : ∀ c ∈ m :: mid2, isDig c = true) (suf : List Char) :
    ∀ pre, containsSub q (pre ++ (m :: mid2) ++ suf) =
      (containsSub q pre || containsSub q suf) := by
  intro pre
  induction pre with
  | nil =>
    rw [List.nil_append, containsSub_digit_skip hq hqne suf (m :: mid2) hdig]
    have h1 : containsSub q [] = false := by
      cases q with
      | nil => exact absurd rfl hqne
      | cons _ _ => rfl
    rw [h1]
    simp
  | cons p pre2 ih =>
    have hshape : (p :: pre2) ++ (m :: mid2) ++ suf =
        p :: (pre2 ++ (m :: mid2) ++ suf) := by simp
    have hB : isPre q (p :: (pre2 ++ (m :: mid2) ++ suf)) = isPre q (p :: pre2) := by
      have h6 := isPre_digit_skip (hdig m (List.mem_cons_self _ _)) (mid2 ++ suf)
        (p :: pre2) q hq
      have h7 : (p :: pre2) ++ m :: (mid2 ++ suf) =
          p :: (pre2 ++ (m :: mid2) ++ suf) := by simp
      rwa [h7] at h6
    have hunf : containsSub q (p :: (pre2 ++ (m :: mid2) ++ suf)) =
        (isPre q (p :: (pre2 ++ (m :: mid2) ++ suf)) ||
         containsSub q (pre2 ++ (m :: mid2) ++ suf)) := rfl
    have hunf2 : containsSub q (p :: pre2) =
        (isPre q (p :: pre2) || containsSub q pre2) := rfl
    rw [hshape, hunf, hB, ih, hunf2]
    cases isPre q (p :: pre2) <;> cases containsSub q pre2 <;>
      cases containsSub q suf <;> rfl

/-- The per-layer norm key split form. -/
theorem layerKey_eq_split (l : Nat) (s : Key) :
    layerKey l s = layersPre ++ toDec l ++ s := rfl

/-- `rename_key` sends `backbone.layers.{l}` norm keys to `h3.blocks.{l}`
norm keys, for any suffix free of the trigger patterns. -/
theorem rename_layerKey {s : Key}
    (h1 : containsSub pEmb s = false) (h2 : containsSub pLayers s = false)
    (h3 : containsSub pLnf s = false) (l : Nat) :
    rename_key (layerKey l s) = blkKey l s := by
  obtain ⟨m, mid2, hmid⟩ : ∃ m mid2, toDec l = m :: mid2 := by
    cases hh : toDec l with
    | nil => exact absurd hh (toDec_ne_nil l)
    | cons a b => exact ⟨a, b, rfl⟩
  have hdig : ∀ c ∈ m :: mid2, isDig c = true := by
    rw [← hmid]
    exact toDec_digits l
  have hsplitKey : layerKey l s = layersPre ++ (m :: mid2) ++ s := by
    rw [layerKey_eq_split, hmid]
  have hE : containsSub pEmb (layerKey l s) = false := by
    rw [hsplitKey, containsSub_digit_split (by decide) (by decide) hdig s layersPre]
    rw [h1]
    decide
  have hL : containsSub pLayers (layerKey l s) = true := by
    apply containsSub_of_isPre
    have hx : layerKey l s = pLayers ++ (['.'] ++ toDec l ++ s) := by
      rw [layerKey_eq_split]
      have : layersPre = pLayers ++ ['.'] := by decide
      rw [this]
      simp [List.append_assoc]
    rw [hx]
    exact isPre_append_self _ _
  have hrest : containsSub pLayers (['.'] ++ (m :: mid2) ++ s) = false := by
    rw [containsSub_digit_split (by decide) (by decide) hdig s ['.']]
    rw [h2]
    decide
  have hcomp : replaceAll pLayers rBlocks (layerKey l s) = blkKey l s := by
    have hx : layerKey l s = pLayers ++ (['.'] ++ (m :: mid2) ++ s) := by
      rw [hsplitKey]
      have h4 : layersPre = pLayers ++ ['.'] := by decide
      rw [h4]
      simp [List.append_assoc]
    rw [hx, replaceAll_pre_append rBlocks (by decide) _]
    rw [replaceAll_id_of_not_contains rBlocks _ hrest]
    unfold blkKey
    have h5 : blocksPre = rBlocks ++ ['.'] := by decide
    rw [h5, hmid]
    simp [List.append_assoc]
  have hF2 : containsSub pLnf (blkKey l s) = false := by
    unfold blkKey
    rw [hmid, containsSub_digit_split (by decide) (by decide) hdig s blocksPre]
    rw [h3]
    decide
  simp [rename_key, hE, hL, hcomp, hF2]

theorem rename_lk_n1w (l : Nat) : rename_key (layerKey l sufN1w) = blkKey l sufN1w :=
  rename_layerKey (by decide) (by decide) (by decide) l

theorem rename_lk_n1b (l : Nat) : rename_key (layerKey l sufN1b) = blkKey l sufN1b :=
  rename_layerKey (by decide) (by decide) (by decide) l

theorem rename_lk_n2w (l : Nat) : rename_key (layerKey l sufN2w) = blkKey l sufN2w :=
  rename_layerKey (by decide) (by decide) (by decide) l

theorem rename_lk_n2b (l : Nat) : rename_key (layerKey l sufN2b) = blkKey l sufN2b :=
  rename_layerKey (by decide) (by decide) (by decide) l

end H3

namespace H3

theorem rename_lnfw_eq : rename_key lnfw = fnw := by decide

theorem rename_lnfb_eq : rename_key lnfb = fnb := by decide

theorem rename_blk0w_eq : rename_key blk0w = blk0w := by decide

theorem rename_blk0b_eq : rename_key blk0b = blk0b := by decide

theorem blk_ne_fnw (l : Nat) (s : Key) : blkKey l s ≠ fnw := blkKey_ne (by decide) l s

theorem blk_ne_fnb (l : Nat) (s : Key) : blkKey l s ≠ fnb := blkKey_ne (by decide) l s

theorem shape_of_sufList {s : Key} (hs : s ∈ sufList) :
    ∃ c t, s = c :: t ∧ isDig c = false := by
  simp only [sufList, List.mem_cons, List.mem_singleton, List.not_mem_nil, or_false] at hs
  rcases hs with h | h | h | h <;> subst h
  exacts [shape_n1w, shape_n1b, shape_n2w, shape_n2b]

/-- Every reindexed key is the final-norm pair or a `keyOf l s`, and its
image under `rename_key` is the corresponding destination-style key. -/
theorem key_img (L : Nat) (k : Key) (hk : k ∈ reindexedKeys L) :
    (k = lnfw ∧ rename_key k = fnw) ∨ (k = lnfb ∧ rename_key k = fnb) ∨
    (∃ l s, s ∈ sufList ∧ k = keyOf l s ∧ rename_key k = blkKey l s) := by
  rw [mem_reindexedKeys] at hk
  rcases hk with h | h | ⟨l, hl, h | h⟩ | ⟨l, h0, hl, h | h⟩ | h | h
  · exact Or.inl ⟨h, by rw [h]; exact rename_lnfw_eq⟩
  · exact Or.inr (Or.inl ⟨h, by rw [h]; exact rename_lnfb_eq⟩)
  · refine Or.inr (Or.inr ⟨l, sufN2w, by decide, ?_, ?_⟩)
    · have hcond : ¬(l = 0 ∧ (sufN2w = sufN1w ∨ sufN2w = sufN1b)) := by
        rintro ⟨_, h2 | h2⟩ <;> revert h2 <;> decide
      unfold keyOf
      rw [if_neg hcond]
      exact h
    · rw [h]
      exact rename_lk_n2w l
  · refine Or.inr (Or.inr ⟨l, sufN2b, by decide, ?_, ?_⟩)
    · have hcond : ¬(l = 0 ∧ (sufN2b = sufN1w ∨ sufN2b = sufN1b)) := by
        rintro ⟨_, h2 | h2⟩ <;> revert h2 <;> decide
      unfold keyOf
      rw [if_neg hcond]
      exact h
    · rw [h]
      exact rename_lk_n2b l
  · refine Or.inr (Or.inr ⟨l, sufN1w, by decide, ?_, ?_⟩)
    · have hcond : ¬(l = 0 ∧ (sufN1w = sufN1w ∨ sufN1w = sufN1b)) := by
        rintro ⟨h4, _⟩
        omega
      unfold keyOf
      rw [if_neg hcond]
      exact h
    · rw [h]
      exact rename_lk_n1w l
  · refine Or.inr (Or.inr ⟨l, sufN1b, by decide, ?_, ?_⟩)
    · have hcond : ¬(l = 0 ∧ (sufN1b = sufN1w ∨ sufN1b = sufN1b)) := by
        rintro ⟨h4, _⟩
        omega
      unfold keyOf
      rw [if_neg hcond]
      exact h
    · rw [h]
      exact rename_lk_n1b l
  · refine Or.inr (Or.inr ⟨0, sufN1w, by decide, ?_, ?_⟩)
    · rw [h]; decide
    · rw [h]
      have h5 : blkKey 0 sufN1w = blk0w := by decide
      rw [h5]
      exact rename_blk0w_eq
  · refine Or.inr (Or.inr ⟨0, sufN1b, by decide, ?_, ?_⟩)
    · rw [h]; decide
    · rw [h]
      have h5 : blkKey 0 sufN1b = blk0b := by decide
      rw [h5]
      exact rename_blk0b_eq

/-- `rename_key` is injective on the reindexed key set. -/
theorem reindexed_inj (L : Nat) : ∀ k, k ∈ reindexedKeys L → ∀ k2, k2 ∈ reindexedKeys L →
    rename_key k = rename_key k2 → k = k2 := by
  intro k hk k2 hk2 h
  rcases key_img L k hk with ⟨e1, r1⟩ | ⟨e1, r1⟩ | ⟨l, s, hs, e1, r1⟩ <;>
    rcases key_img L k2 hk2 with ⟨e2, r2⟩ | ⟨e2, r2⟩ | ⟨l2, s2, hs2, e2, r2⟩
  · rw [e1, e2]
  · rw [r1, r2] at h
    exact absurd h (by decide)
  · rw [r1, r2] at h
    exact absurd h.symm (blk_ne_fnw l2 s2)
  · rw [r1, r2] at h
    exact absurd h (by decide)
  · rw [e1, e2]
  · rw [r1, r2] at h
    exact absurd h.symm (blk_ne_fnb l2 s2)
  · rw [r1, r2] at h
    exact absurd h (blk_ne_fnw l s)
  · rw [r1, r2] at h
    exact absurd h (blk_ne_fnb l s)
  · rw [r1, r2] at h
    obtain ⟨hll, hss⟩ := blkKey_inj (shape_of_sufList hs) (shape_of_sufList hs2) h
    rw [e1, e2, hll, hss]

theorem dlookup_map_prn {α : Type} :
    ∀ (d : Dict α) (k0 : Key),
    (∀ k, k ∈ dkeys d → rename_key k = rename_key k0 → k = k0) →
    dlookup (rename_key k0) (d.map (fun kv => (rename_key kv.1, kv.2))) =
      dlookup k0 d := by
  intro d
  induction d with
  | nil => intro k0 _; rfl
  | cons kv rest ih =>
    intro k0 hh
    obtain ⟨k2, v2⟩ := kv
    by_cases hk : k0 = k2
    · subst hk
      simp [dlookup]
    · have hmem2 : k2 ∈ dkeys ((k2, v2) :: rest) := by
        rw [dkeys_cons]
        exact List.mem_cons_self _ _
      have h2 : rename_key k2 ≠ rename_key k0 := by
        intro h3
        exact hk ((hh k2 hmem2 h3).symm)
      simp only [List.map_cons, dlookup]
      rw [if_neg (fun hx => h2 hx.symm), if_neg hk]
      exact ih k0 (fun k3 hk3 h4 => hh k3 (List.mem_cons_of_mem _ hk3) h4)

end H3

namespace H3

/-- C9: after reindexing a canonical legacy mapping, the sentinel tensors
sit directly under the destination-style keys `h3.blocks.0.norm1.*` (the
source-style `backbone.layers.0.norm1.*` keys are absent), while every
other reindexed normalization entry remains under a source-style
`backbone.` key; `rename_key` maps the two destination-style keys to
themselves, so the composed reindex-then-rename pipeline places the
sentinel tensors at layer 0's `norm1` in the destination naming. -/
theorem C9_sentinel_destination {α : Type} (L : Nat) (hL : 0 < L)
    (W1 B1 W2 B2 : Nat → α) (sw sb : α) :
    ∃ out, reindex L (legacyDict L W1 B1 W2 B2 sw sb) = some out ∧
      dlookup blk0w out = some sw ∧ dlookup blk0b out = some sb ∧
      dlookup (layerKey 0 sufN1w) out = none ∧
      dlookup (layerKey 0 sufN1b) out = none ∧
      (∀ l, l < L → dlookup (layerKey l sufN2w) out = some (W1 l) ∧
        dlookup (layerKey l sufN2b) out = some (B1 l)) ∧
      (∀ l, 0 < l → l < L → dlookup (layerKey l sufN1w) out = some (W2 (l - 1)) ∧
        dlookup (layerKey l sufN1b) out = some (B2 (l - 1))) ∧
      dlookup lnfw out = some (W2 (L - 1)) ∧
      dlookup lnfb out = some (B2 (L - 1)) ∧
      rename_key blk0w = blk0w ∧ rename_key blk0b = blk0b ∧
      dlookup blk0w (convert_state_dict out) = some sw ∧
      dlookup blk0b (convert_state_dict out) = some sb := by
  obtain ⟨out, heq, hfw, hfb, hA, hB, hbw, hbb, h01w, h01b, hndo, hmemiff⟩ :=
    reindex_canonical L hL W1 B1 W2 B2 sw sb
  have hinj : ∀ k, k ∈ dkeys out → ∀ k2, k2 ∈ dkeys out →
      rename_key k = rename_key k2 → k = k2 := by
    intro k hk k2 hk2 h
    exact reindexed_inj L k ((hmemiff k).mp hk) k2 ((hmemiff k2).mp hk2) h
  have himg : ∀ k k2, k ∈ dkeys out → k2 ∈ dkeys out → rename_key k = k2 → k = k2 := by
    intro k k2 hk hk2 h
    apply hinj k hk k2 hk2
    calc rename_key k = rename_key (rename_key k) := (rename_key_idem_aux k).symm
      _ = rename_key k2 := by rw [h]
  have hmain := csdGo_spec (dkeys out) out [] (List.Perm.refl _) hndo
    (fun k _ => by simp [dkeys]) (fun k _ => by simp [dkeys]) himg
    (fun a b ha hb hab => hinj a ha b hb hab)
  rw [List.append_nil] at hmain
  have hpure : convert_state_dict out = out.map (fun kv => (rename_key kv.1, kv.2)) := by
    unfold convert_state_dict
    rw [hmain, filterMap_keys_eq out hndo]
    simp
  have hbkw : blk0w ∈ dkeys out := dlookup_mem_dkeys hbw
  have hbkb : blk0b ∈ dkeys out := dlookup_mem_dkeys hbb
  have hcw : dlookup blk0w (convert_state_dict out) = some sw := by
    rw [hpure]
    have h6 := dlookup_map_prn out blk0w (fun k hk h4 => hinj k hk blk0w hbkw h4)
    rw [rename_blk0w_eq] at h6
    rw [h6, hbw]
  have hcb : dlookup blk0b (convert_state_dict out) = some sb := by
    rw [hpure]
    have h6 := dlookup_map_prn out blk0b (fun k hk h4 => hinj k hk blk0b hbkb h4)
    rw [rename_blk0b_eq] at h6
    rw [h6, hbb]
  exact ⟨out, heq, hbw, hbb, h01w, h01b, hA, hB, hfw, hfb,
    rename_blk0w_eq, rename_blk0b_eq, hcw, hcb⟩

/-- Witness for C9 at `L = 2`. -/
theorem C9_sentinel_destination_witness :
    ∃ out, reindex 2 (legacyDict 2 (fun l => 10 + l) (fun l => 20 + l)
        (fun l => 30 + l) (fun l => 40 + l) 7 8) = some out ∧
      dlookup blk0w out = some 7 ∧ dlookup blk0b out = some 8 ∧
      dlookup (layerKey 0 sufN1w) out = none ∧
      dlookup (layerKey 0 sufN1b) out = none ∧
      (∀ l, l < 2 → dlookup (layerKey l sufN2w) out = some (10 + l) ∧
        dlookup (layerKey l sufN2b) out = some (20 + l)) ∧
      (∀ l, 0 < l → l < 2 → dlookup (layerKey l sufN1w) out = some (30 + (l - 1)) ∧
        dlookup (layerKey l sufN1b) out = some (40 + (l - 1))) ∧
      dlookup lnfw out = some (30 + (2 - 1)) ∧
      dlookup lnfb out = some (40 + (2 - 1)) ∧
      rename_key blk0w = blk0w ∧ rename_key blk0b = blk0b ∧
      dlookup blk0w (convert_state_dict out) = some 7 ∧
      dlookup blk0b (convert_state_dict out) = some 8 :=
  C9_sentinel_destination 2 (by decide) _ _ _ _ 7 8

end H3
